import Mathlib

/-!
Shallow embedding of the obstacle-sweeping path-counting engine in
`src/solution.cpp`, together with proofs settling the frozen claims.

The C++ core consists of
  * `struct SegmentTree` (array-backed, lazy "set-to-zero" tag): `buildTree`,
    `pushUp`, `pushDown`, `updatePoint`, `zeroRange`, `queryRange`;
  * a `std::set<pair<int,int>>` of active column intervals ordered
    lexicographically, with a sentinel `(0,0)`;
  * the row-sweep driver in `main`.

Machine integers: every value the program manipulates is a non-negative
integer below `kMod` or a small coordinate, far from `int` overflow, so the
embedding uses `Nat` with explicit `% kMod` exactly where the source reduces.
-/

/-- Modulo used for all sums (`const int kMod=1e9+7` in the source). -/
def kMod : ℕ := 1000000007

/-!
## Segment tree

The C++ tree is an implicit array `tree[kMaxN*4]` of nodes `{l, r, tag, sum}`
built once by `buildTree(1,1,mCols)`.  We embed it as an explicit binary tree
whose nodes carry the same fields; `buildTree` fixes the shape, and the
recursive operations mirror the source line by line.

One representational device: the C++ functions call `pushDown(x)` on an
internal node before descending, which materialises the pending zero tag into
the two child nodes (`tag := 1, sum := 0` on each child's root fields).  In
the functional embedding each recursive operation instead carries a boolean
`z` meaning "the caller's `pushDown` set this node's tag and cleared its sum";
the effective tag of the visited node is `z || tag` and its effective sum is
`if z then 0 else sum`.  A child that is not descended into gets the pending
zero materialised by `STree.setZero` (exactly the two field writes
`tree[child].tag = 1; tree[child].sum = 0` that `pushDown` performs).  This is
the same state evolution as the imperative code, expressed structurally.
-/

/-- A segment-tree node: either a leaf `[pos,pos]` or an internal node
`[l,r]` with two children, as laid out by `buildTree`.  Fields `tag` and
`sum` are the per-node fields of `SegmentTree::Node`. -/
inductive STree where
  | leaf (pos : ℕ) (tag : Bool) (sum : ℕ)
  | node (l r : ℕ) (tag : Bool) (sum : ℕ) (lc rc : STree)
deriving DecidableEq

/-- Stored `sum` field of the root node of `t`. -/
def STree.sumOf : STree → ℕ
  | .leaf _ _ s => s
  | .node _ _ _ s _ _ => s

/-- The two field writes `tree[x].tag = 1; tree[x].sum = 0` that
`SegmentTree::pushDown` performs on a child node `x` (children of `x` are not
touched). -/
def STree.setZero : STree → STree
  | .leaf p _ _ => .leaf p true 0
  | .node l r _ _ lc rc => .node l r true 0 lc rc

/-- `SegmentTree::buildTree(x,l,r)`: node interval `[l,r]`, leaves where
`l == r`, children over `[l,mid]` and `[mid+1,r]` with `mid=(l+r)>>1`.
The global arrays are zero-initialised, so every `tag` starts `false` and
every `sum` starts `0`.  Structured over a fuel argument so that the
definition is structural (the driver always supplies enough fuel). -/
def buildT : ℕ → ℕ → ℕ → STree
  | 0, l, _ => .leaf l false 0
  | fuel + 1, l, r =>
    if l < r then
      .node l r false 0 (buildT fuel l ((l + r) / 2)) (buildT fuel ((l + r) / 2 + 1) r)
    else
      .leaf l false 0

/-- `seg.buildTree(1,l,r)` at the call site: fuel `r - l` suffices because the
range length at least halves at every level. -/
def buildTree (l r : ℕ) : STree := buildT (r - l) l r

/-- `SegmentTree::updatePoint(x,pos,val)` with the pending-pushdown flag `z`
(see the header comment).  At a leaf the source writes `tree[x].sum = val`
and returns, leaving the (possibly stale) tag in place.  At an internal node
it pushes down, descends into the side containing `pos`, and `pushUp`s
`tree[x].sum = (lsum + rsum) % kMod` with `tag` cleared by the pushdown. -/
def updatePointAux : STree → ℕ → ℕ → Bool → STree
  | .leaf p tg _, _, v, z => .leaf p (z || tg) v
  | .node l r tg _ lc rc, pos, v, z =>
    let effTag := z || tg
    let mid := (l + r) / 2
    let lc2 := if pos ≤ mid then updatePointAux lc pos v effTag
               else if effTag then lc.setZero else lc
    let rc2 := if mid < pos then updatePointAux rc pos v effTag
               else if effTag then rc.setZero else rc
    .node l r false ((lc2.sumOf + rc2.sumOf) % kMod) lc2 rc2

/-- `seg.updatePoint(1,pos,val)` as called by the driver. -/
def updatePoint (t : STree) (pos v : ℕ) : STree := updatePointAux t pos v false

/-- `SegmentTree::zeroRange(x,l,r)` with the pending-pushdown flag `z`.
A fully covered node gets `tag = 1, sum = 0` with children untouched;
otherwise push down, recurse into overlapping children, and push up.
The non-covered leaf case can only be reached by an empty query range in this
program; the source's `pushDown` there just clears the leaf tag. -/
def zeroRangeAux : STree → ℕ → ℕ → Bool → STree
  | .leaf p _tg s, l, r, z =>
    if l ≤ p ∧ p ≤ r then .leaf p true 0
    else .leaf p false (if z then 0 else s)
  | .node nl nr tg _ lc rc, l, r, z =>
    if l ≤ nl ∧ nr ≤ r then .node nl nr true 0 lc rc
    else
      let effTag := z || tg
      let mid := (nl + nr) / 2
      let lc2 := if l ≤ mid then zeroRangeAux lc l r effTag
                 else if effTag then lc.setZero else lc
      let rc2 := if mid < r then zeroRangeAux rc l r effTag
                 else if effTag then rc.setZero else rc
      .node nl nr false ((lc2.sumOf + rc2.sumOf) % kMod) lc2 rc2

/-- `seg.zeroRange(1,l,r)` as called by the driver. -/
def zeroRange (t : STree) (l r : ℕ) : STree := zeroRangeAux t l r false

/-- `SegmentTree::queryRange(x,l,r)` with the pending-pushdown flag `z`.
Returns the queried value together with the tree after the query (the source
mutates tags via `pushDown` while descending; no `pushUp` is performed, so a
non-covered node keeps its sum and ends with a cleared tag).  The accumulator
mirrors `int tmp=0; if(l<=mid)(tmp+=...)%=kMod; if(mid<r)(tmp+=...)%=kMod`. -/
def queryRangeAux : STree → ℕ → ℕ → Bool → ℕ × STree
  | .leaf p tg s, l, r, z =>
    let effS := if z then 0 else s
    if l ≤ p ∧ p ≤ r then (effS, .leaf p (z || tg) effS)
    else (0, .leaf p false effS)
  | .node nl nr tg s lc rc, l, r, z =>
    let effTag := z || tg
    let effS := if z then 0 else s
    if l ≤ nl ∧ nr ≤ r then (effS, .node nl nr effTag effS lc rc)
    else
      let mid := (nl + nr) / 2
      let pl := if l ≤ mid then queryRangeAux lc l r effTag
                else (0, if effTag then lc.setZero else lc)
      let pr := if mid < r then queryRangeAux rc l r effTag
                else (0, if effTag then rc.setZero else rc)
      let t1 := if l ≤ mid then (0 + pl.1) % kMod else 0
      let t2 := if mid < r then (t1 + pr.1) % kMod else t1
      (t2, .node nl nr false effS pl.2 pr.2)

/-- `seg.queryRange(1,l,r)` as called by the driver. -/
def queryRange (t : STree) (l r : ℕ) : ℕ × STree := queryRangeAux t l r false

/-!
## Abstraction: per-column contents and well-formedness

`denote t p` is the value the tree currently stores at column `p`: a pending
zero tag on an internal node hides the (stale) contents of its subtree, and a
leaf's value is its `sum` field (a leaf's `tag` is never consulted by any
operation of this program, which is what makes the stale leaf tag left by
`updatePoint` harmless).
-/

/-- Contents of the tree at position `p`. -/
def denote : STree → ℕ → ℕ
  | .leaf _ _ s, _ => s
  | .node l r tag _ lc rc, p =>
    if tag then 0 else if p ≤ (l + r) / 2 then denote lc p else denote rc p

/-- Shape correctness relative to an intended range `[l,r]`: stored node
ranges match, internal nodes split at `mid = (l+r)/2`, leaves sit at
singleton ranges.  This is exactly the shape `buildTree` produces. -/
def shaped : STree → ℕ → ℕ → Bool
  | .leaf p _ _, l, r => l == r && p == l
  | .node nl nr _ _ lc rc, l, r =>
    decide (l < r) && nl == l && nr == r &&
      shaped lc l ((l + r) / 2) && shaped rc ((l + r) / 2 + 1) r

/-- Sum invariant: every internal node's stored `sum` is the sum of the
tree's contents over the node's range, reduced mod `kMod`.  (When the node is
tagged its contents are all `0`, so the invariant forces `sum = 0` there.)
Leaves carry no constraint: a leaf's `sum` IS its content, possibly
unreduced. -/
def wf : STree → Bool
  | .leaf _ _ _ => true
  | .node l r tag s lc rc =>
    s == (∑ p in Finset.Icc l r, denote (.node l r tag s lc rc) p) % kMod &&
      wf lc && wf rc

/-!
## Active-interval set

`set<pair<int,int>> activeSegs` is a finite set of intervals ordered
lexicographically by `(l, r)`.  We model it as a `Finset (ℕ × ℕ)` (the
membership structure; `insert`/`erase` are the set operations) and express
the two iterator manoeuvres of the driver — `prev(lower_bound((y+2,0)))` and
`prev(end())` — as lexicographic maxima.
-/

/-- The comparator `≤` of `std::set<pair<int,int>>` (lexicographic). -/
def lexLe (a b : ℕ × ℕ) : Prop := a.1 < b.1 ∨ (a.1 = b.1 ∧ a.2 ≤ b.2)

instance lexLe.decRel : DecidableRel lexLe := fun a b => by
  unfold lexLe; infer_instance

theorem lexLe_refl (a : ℕ × ℕ) : lexLe a a := Or.inr ⟨rfl, le_refl _⟩

theorem lexLe_total (a b : ℕ × ℕ) : lexLe a b ∨ lexLe b a := by
  unfold lexLe; omega

theorem lexLe_antisymm {a b : ℕ × ℕ} (h1 : lexLe a b) (h2 : lexLe b a) : a = b := by
  obtain ⟨a1, a2⟩ := a; obtain ⟨b1, b2⟩ := b
  unfold lexLe at h1 h2
  simp only [Prod.mk.injEq]
  omega

theorem lexLe_trans {a b c : ℕ × ℕ} (h1 : lexLe a b) (h2 : lexLe b c) : lexLe a c := by
  unfold lexLe at *; omega

instance : IsTotal (ℕ × ℕ) lexLe := ⟨lexLe_total⟩

instance : IsTrans (ℕ × ℕ) lexLe := ⟨fun _ _ _ => lexLe_trans⟩

instance : IsAntisymm (ℕ × ℕ) lexLe := ⟨fun _ _ => lexLe_antisymm⟩

/-- Binary maximum for the set's comparator. -/
def lexMax (a b : ℕ × ℕ) : ℕ × ℕ := if lexLe a b then b else a

instance : Std.Commutative lexMax := ⟨by
  intro a b
  unfold lexMax
  by_cases h1 : lexLe a b <;> by_cases h2 : lexLe b a <;> simp [h1, h2]
  · exact (lexLe_antisymm h1 h2).symm
  · rcases lexLe_total a b with h | h <;> [exact absurd h h1; exact absurd h h2]⟩

instance : Std.Associative lexMax := ⟨by
  intro a b c
  obtain ⟨a1, a2⟩ := a; obtain ⟨b1, b2⟩ := b; obtain ⟨c1, c2⟩ := c
  simp only [lexMax, lexLe]
  split_ifs <;> simp_all only [Prod.mk.injEq] <;> omega⟩

/-- Maximum of a finite set of intervals under the comparator, with the
default `(0,0)` for the empty set (the sentinel guarantees nonemptiness at
every use site, and the sentinel equals the default anyway). -/
def segFoldMax (s : Finset (ℕ × ℕ)) : ℕ × ℕ := s.fold lexMax (0, 0) id

/-- `auto it=activeSegs.lower_bound(make_pair(y+2,0)); it--; auto pr=*it;`
with `bound = y+1`: the greatest interval of the set whose left endpoint is
at most `bound` (ties broken by the larger right endpoint).  An element is
lexicographically below `(y+2, 0)` exactly when its left endpoint is
`≤ y+1`. -/
def segPred (s : Finset (ℕ × ℕ)) (bound : ℕ) : ℕ × ℕ :=
  segFoldMax (s.filter (fun e => e.1 ≤ bound))

/-- `auto it=activeSegs.end(); it--;`: the greatest interval of the set. -/
def segMax (s : Finset (ℕ × ℕ)) : ℕ × ℕ := segFoldMax s

/-!
## Events and the row-sweep driver
-/

/-- One obstacle rectangle, as read by `main`: corners
`(x1, y1)`–`(x2, y2)`. -/
structure Rect where
  x1 : ℕ
  y1 : ℕ
  x2 : ℕ
  y2 : ℕ
deriving DecidableEq

/-- Input validity from the spec's external-interface section: 1-indexed
corners inside the grid, `x1 ≤ x2`, `y1 ≤ y2`. -/
def validRect (n m : ℕ) (q : Rect) : Prop :=
  1 ≤ q.x1 ∧ q.x1 ≤ q.x2 ∧ q.x2 ≤ n ∧ 1 ≤ q.y1 ∧ q.y1 ≤ q.y2 ∧ q.y2 ≤ m

instance (n m : ℕ) (q : Rect) : Decidable (validRect n m q) := by
  unfold validRect; infer_instance

/-- `addRanges[x1].push_back(make_pair(y1,y2))`: the activation bucket of row
`i`, in input order. -/
def addRanges (rects : List Rect) (i : ℕ) : List (ℕ × ℕ) :=
  (rects.filter (fun q => q.x1 == i)).map (fun q => (q.y1, q.y2))

/-- `delRanges[x2+1].push_back(make_pair(y1,y2))`: the expiration bucket of
row `i`, in input order. -/
def delRanges (rects : List Rect) (i : ℕ) : List (ℕ × ℕ) :=
  (rects.filter (fun q => q.x2 + 1 == i)).map (fun q => (q.y1, q.y2))

/-- `sort(addRanges[i].begin(), addRanges[i].end());
reverse(addRanges[i].begin(), addRanges[i].end());` — the bucket sorted by
`(l, r)` descending.  (`std::sort` with the pair order produces the unique
weakly increasing arrangement, since equal keys are identical pairs.) -/
def sortDesc (l : List (ℕ × ℕ)) : List (ℕ × ℕ) := (l.insertionSort lexLe).reverse

/-- The driver's mutable state: the DP segment tree (`seg`) and the active
interval set (`activeSegs`). -/
structure SState where
  tree : STree
  segs : Finset (ℕ × ℕ)
deriving DecidableEq

/-- Body of the boundary loop `for(auto segRange:addRanges[i]) { ... }`:
`if (y==mCols) continue;` then the predecessor lookup with bound `y+1`, the
corridor sum when the predecessor does not overlap, and the point write of
the new DP value at column `y+1`.  (`queryRange` also returns the tree after
its tag pushes, which the write then acts on.) -/
def boundaryStep (m : ℕ) (st : SState) (e : ℕ × ℕ) : SState :=
  if e.2 = m then st
  else
    let pr := segPred st.segs (e.2 + 1)
    if pr.2 ≤ e.2 then
      let q := queryRange st.tree (pr.2 + 1) (e.2 + 1)
      { tree := updatePoint q.2 (e.2 + 1) q.1, segs := st.segs }
    else
      { tree := updatePoint st.tree (e.2 + 1) 0, segs := st.segs }

/-- The boundary loop over a given traversal order of the activation
bucket. -/
def boundaryPhase (m : ℕ) (st : SState) (lst : List (ℕ × ℕ)) : SState :=
  lst.foldl (boundaryStep m) st

/-- `for(auto segRange:delRanges[i]) activeSegs.erase(segRange);` -/
def delFold (s : Finset (ℕ × ℕ)) (lst : List (ℕ × ℕ)) : Finset (ℕ × ℕ) :=
  lst.foldl Finset.erase s

/-- `for(auto segRange:addRanges[i]) activeSegs.insert(segRange),
seg.zeroRange(1,segRange.first,segRange.second);` -/
def addPhase (st : SState) (lst : List (ℕ × ℕ)) : SState :=
  lst.foldl
    (fun st e => { tree := zeroRange st.tree e.1 e.2, segs := insert e st.segs }) st

/-- `activeSegs.insert(...)` over a whole list (the row-1 preload). -/
def insFold (s : Finset (ℕ × ℕ)) (lst : List (ℕ × ℕ)) : Finset (ℕ × ℕ) :=
  lst.foldl (fun s e => insert e s) s

/-- One iteration of `for(int i=2;i<=nRows;i++)`, generalised over the order
`proc` in which the row's activation bucket is traversed.  The driver sorts
the bucket in place, so the same descending list drives both the boundary
loop and the activation loop. -/
def stepRowWith (m : ℕ) (st : SState) (proc dels : List (ℕ × ℕ)) : SState :=
  let st1 := boundaryPhase m st proc
  addPhase { tree := st1.tree, segs := delFold st1.segs dels } proc

/-- One iteration of the row loop exactly as the driver performs it. -/
def stepRow (m : ℕ) (st : SState) (adds dels : List (ℕ × ℕ)) : SState :=
  stepRowWith m st (sortDesc adds) dels

/-- Everything `main` does before the row loop: sentinel insertion, row-1
preload of `activeSegs`, `buildTree(1,1,mCols)`, `updatePoint(1,1,1)`. -/
def initState (m : ℕ) (rects : List Rect) : SState :=
  { tree := updatePoint (buildTree 1 m) 1 1,
    segs := insFold {(0, 0)} (addRanges rects 1) }

/-- State after the row loop has processed rows `2..r`; `sweepTo m rects 1`
is the initial state and `sweepTo m rects n` the state after the whole
loop. -/
def sweepTo (m : ℕ) (rects : List Rect) : ℕ → SState
  | 0 => initState m rects
  | 1 => initState m rects
  | r + 2 =>
    stepRow m (sweepTo m rects (r + 1)) (addRanges rects (r + 2)) (delRanges rects (r + 2))

/-- The sweep with an arbitrary per-row traversal order of the activation
buckets (used to state order-(in)dependence claims). -/
def sweepToOrd (m : ℕ) (rects : List Rect) (ord : ℕ → List (ℕ × ℕ)) : ℕ → SState
  | 0 => initState m rects
  | 1 => initState m rects
  | r + 2 =>
    stepRowWith m (sweepToOrd m rects ord (r + 1)) (ord (r + 2)) (delRanges rects (r + 2))

/-- `auto it=activeSegs.end(); it--;
printf("%d",seg.queryRange(1,(*it).second+1,mCols));` -/
def finalAnswer (m : ℕ) (st : SState) : ℕ :=
  (queryRange st.tree ((segMax st.segs).2 + 1) m).1

/-- The whole program: value printed for input `(n, m, rects)`. -/
def engine (n m : ℕ) (rects : List Rect) : ℕ := finalAnswer m (sweepTo m rects n)

/-- The program with the per-row activation traversal order replaced by
`ord`; `engine` is the instance `ord i = sortDesc (addRanges rects i)`. -/
def engineOrdered (n m : ℕ) (rects : List Rect) (ord : ℕ → List (ℕ × ℕ)) : ℕ :=
  finalAnswer m (sweepToOrd m rects ord n)

/-!
## Basic facts about the tree abstraction
-/

theorem kMod_pos : 0 < kMod := by decide

theorem shaped_leaf_iff {p : ℕ} {tg : Bool} {s a b : ℕ} :
    shaped (.leaf p tg s) a b = true ↔ a = b ∧ p = a := by
  simp [shaped, Bool.and_eq_true, beq_iff_eq]

theorem shaped_node_iff {l r : ℕ} {tg : Bool} {s : ℕ} {lc rc : STree} {a b : ℕ} :
    shaped (.node l r tg s lc rc) a b = true ↔
      a < b ∧ l = a ∧ r = b ∧ shaped lc a ((a + b) / 2) = true ∧
        shaped rc ((a + b) / 2 + 1) b = true := by
  constructor
  · intro h
    simp only [shaped, Bool.and_eq_true, beq_iff_eq, decide_eq_true_eq] at h
    obtain ⟨⟨⟨⟨hlt, hl⟩, hr⟩, h1⟩, h2⟩ := h
    subst hl; subst hr
    exact ⟨hlt, rfl, rfl, h1, h2⟩
  · rintro ⟨hlt, rfl, rfl, h1, h2⟩
    simp [shaped, Bool.and_eq_true, decide_eq_true_eq, hlt, h1, h2]

theorem denote_tagged {l r s : ℕ} {lc rc : STree} {p : ℕ} :
    denote (.node l r true s lc rc) p = 0 := rfl

theorem sumOf_setZero (t : STree) : t.setZero.sumOf = 0 := by cases t <;> rfl

theorem shaped_setZero (t : STree) (a b : ℕ) : shaped t.setZero a b = shaped t a b := by
  cases t <;> rfl

theorem denote_setZero (t : STree) (p : ℕ) : denote t.setZero p = 0 := by
  cases t <;> rfl

theorem wf_setZero {t : STree} (h : wf t = true) : wf t.setZero = true := by
  cases t with
  | leaf p tg s => rfl
  | node l r tg s lc rc =>
    simp only [wf, Bool.and_eq_true] at h
    simp [STree.setZero, wf, denote_tagged, Bool.and_eq_true, h.1.2, h.2]

/-- Splitting a sum over `[a,b]` at `mid`. -/
theorem sum_Icc_split (f : ℕ → ℕ) (a mid b : ℕ) (h1 : a ≤ mid + 1) (h2 : mid ≤ b) :
    ∑ p in Finset.Icc a b, f p =
      (∑ p in Finset.Icc a mid, f p) + ∑ p in Finset.Icc (mid + 1) b, f p := by
  have hu : Finset.Icc a mid ∪ Finset.Icc (mid + 1) b = Finset.Icc a b := by
    ext x
    simp only [Finset.mem_union, Finset.mem_Icc]
    omega
  have hd : Disjoint (Finset.Icc a mid) (Finset.Icc (mid + 1) b) := by
    rw [Finset.disjoint_left]
    intro x hx hy
    simp only [Finset.mem_Icc] at hx hy
    omega
  rw [← hu, Finset.sum_union hd]

theorem denote_buildT (fuel l r p : ℕ) : denote (buildT fuel l r) p = 0 := by
  induction fuel generalizing l r with
  | zero => rfl
  | succ fuel ih =>
    by_cases h : l < r
    · simp [buildT, h, denote, ih]
    · simp [buildT, h, denote]

theorem shaped_buildT (fuel l r : ℕ) (h1 : l ≤ r) (h2 : r - l ≤ fuel) :
    shaped (buildT fuel l r) l r = true := by
  induction fuel generalizing l r with
  | zero =>
    have : l = r := by omega
    subst this
    simp [buildT, shaped]
  | succ fuel ih =>
    by_cases h : l < r
    · have hm1 : l ≤ (l + r) / 2 := by omega
      have hm2 : (l + r) / 2 < r := by omega
      simp only [buildT, if_pos h]
      rw [shaped_node_iff]
      exact ⟨h, rfl, rfl, ih _ _ hm1 (by omega), ih _ _ (by omega) (by omega)⟩
    · have : l = r := by omega
      subst this
      simp [buildT, shaped, h]

theorem wf_buildT (fuel l r : ℕ) : wf (buildT fuel l r) = true := by
  induction fuel generalizing l r with
  | zero => rfl
  | succ fuel ih =>
    by_cases h : l < r
    · simp [buildT, h, wf, Bool.and_eq_true, ih, denote, denote_buildT]
    · simp [buildT, h, wf]

/-- For a shaped, well-formed tree the root's stored sum agrees with the sum
of the contents over the root's range, mod `kMod`. -/
theorem sumOf_mod {t : STree} {a b : ℕ} (hs : shaped t a b = true) (hw : wf t = true) :
    t.sumOf % kMod = (∑ p in Finset.Icc a b, denote t p) % kMod := by
  cases t with
  | leaf p tg s =>
    obtain ⟨rfl, rfl⟩ := shaped_leaf_iff.mp hs
    simp [STree.sumOf, denote, Finset.Icc_self]
  | node l r tg s lc rc =>
    obtain ⟨hab, rfl, rfl, h1, h2⟩ := shaped_node_iff.mp hs
    simp only [wf, Bool.and_eq_true, beq_iff_eq] at hw
    rw [STree.sumOf, hw.1.1, Nat.mod_mod]
    congr 1

theorem denote_node {l r : ℕ} {tg : Bool} {s : ℕ} {lc rc : STree} {p : ℕ} :
    denote (.node l r tg s lc rc) p =
      if tg = true then 0 else if p ≤ (l + r) / 2 then denote lc p else denote rc p := rfl

/-- Internal-node well-formedness rebuilt by a `pushUp` from shaped,
well-formed children. -/
theorem wf_node_of (l r : ℕ) (lc2 rc2 : STree) (hab : l < r)
    (hsl : shaped lc2 l ((l + r) / 2) = true)
    (hsr : shaped rc2 ((l + r) / 2 + 1) r = true)
    (hwl : wf lc2 = true) (hwr : wf rc2 = true) :
    wf (.node l r false ((lc2.sumOf + rc2.sumOf) % kMod) lc2 rc2) = true := by
  simp only [wf, Bool.and_eq_true, beq_iff_eq, hwl, hwr, and_true]
  rw [sum_Icc_split _ l ((l + r) / 2) r (by omega) (by omega)]
  have e1 : (∑ p in Finset.Icc l ((l + r) / 2),
        denote (.node l r false ((lc2.sumOf + rc2.sumOf) % kMod) lc2 rc2) p)
      = ∑ p in Finset.Icc l ((l + r) / 2), denote lc2 p := by
    refine Finset.sum_congr rfl fun p hp => ?_
    rw [Finset.mem_Icc] at hp
    rw [denote_node]
    simp [hp.2]
  have e2 : (∑ p in Finset.Icc ((l + r) / 2 + 1) r,
        denote (.node l r false ((lc2.sumOf + rc2.sumOf) % kMod) lc2 rc2) p)
      = ∑ p in Finset.Icc ((l + r) / 2 + 1) r, denote rc2 p := by
    refine Finset.sum_congr rfl fun p hp => ?_
    rw [Finset.mem_Icc] at hp
    rw [denote_node]
    have : ¬(p ≤ (l + r) / 2) := by omega
    simp [this]
  rw [e1, e2, Nat.add_mod, sumOf_mod hsl hwl, sumOf_mod hsr hwr, ← Nat.add_mod]

theorem shaped_updateAux (t : STree) (a b pos v : ℕ) (z : Bool)
    (hs : shaped t a b = true) : shaped (updatePointAux t pos v z) a b = true := by
  induction t generalizing a b z with
  | leaf p tg s =>
    obtain ⟨rfl, rfl⟩ := shaped_leaf_iff.mp hs
    simp [updatePointAux, shaped]
  | node l r tg s lc rc ihl ihr =>
    obtain ⟨hab, rfl, rfl, h1, h2⟩ := shaped_node_iff.mp hs
    simp only [updatePointAux]
    rw [shaped_node_iff]
    refine ⟨hab, rfl, rfl, ?_, ?_⟩
    · split
      · exact ihl _ _ _ h1
      · split
        · rw [shaped_setZero]; exact h1
        · exact h1
    · split
      · exact ihr _ _ _ h2
      · split
        · rw [shaped_setZero]; exact h2
        · exact h2

theorem denote_updateAux (t : STree) (a b pos v : ℕ) (z : Bool) (hs : shaped t a b = true)
    (hpos1 : a ≤ pos) (hpos2 : pos ≤ b) (q : ℕ) (hq1 : a ≤ q) (hq2 : q ≤ b) :
    denote (updatePointAux t pos v z) q =
      if q = pos then v else if z = true then 0 else denote t q := by
  induction t generalizing a b z with
  | leaf p tg s =>
    obtain ⟨rfl, rfl⟩ := shaped_leaf_iff.mp hs
    have hq : q = pos := by omega
    simp [updatePointAux, denote, hq]
  | node l r tg s lc rc ihl ihr =>
    obtain ⟨hab, rfl, rfl, h1, h2⟩ := shaped_node_iff.mp hs
    simp only [updatePointAux, denote_node, Bool.false_eq_true, if_false]
    by_cases hq : q ≤ (l + r) / 2
    · simp only [if_pos hq]
      by_cases hp : pos ≤ (l + r) / 2
      · simp only [if_pos hp]
        rw [ihl _ _ _ h1 hpos1 hp hq1 hq]
        by_cases hqp : q = pos
        · simp [hqp]
        · simp only [if_neg hqp, denote_node, if_pos hq]
          cases z <;> cases tg <;> simp
      · have hqp : ¬(q = pos) := by omega
        simp only [if_neg hp, if_neg hqp, denote_node, if_pos hq]
        cases z <;> cases tg <;> simp [denote_setZero]
    · simp only [if_neg hq]
      by_cases hp : (l + r) / 2 < pos
      · simp only [if_pos hp]
        rw [ihr _ _ _ h2 (by omega) (by omega) (by omega) hq2]
        by_cases hqp : q = pos
        · simp [hqp]
        · simp only [if_neg hqp, denote_node, if_neg hq]
          cases z <;> cases tg <;> simp
      · have hqp : ¬(q = pos) := by omega
        simp only [if_neg hp, if_neg hqp, denote_node, if_neg hq]
        cases z <;> cases tg <;> simp [denote_setZero]

theorem wf_updateAux (t : STree) (a b pos v : ℕ) (z : Bool) (hs : shaped t a b = true)
    (hpos1 : a ≤ pos) (hpos2 : pos ≤ b) (hw : wf t = true) :
    wf (updatePointAux t pos v z) = true := by
  induction t generalizing a b z with
  | leaf p tg s => rfl
  | node l r tg s lc rc ihl ihr =>
    obtain ⟨hab, rfl, rfl, h1, h2⟩ := shaped_node_iff.mp hs
    simp only [wf, Bool.and_eq_true, beq_iff_eq] at hw
    simp only [updatePointAux]
    apply wf_node_of _ _ _ _ hab
    · split
      · exact shaped_updateAux _ _ _ _ _ _ h1
      · split
        · rw [shaped_setZero]; exact h1
        · exact h1
    · split
      · exact shaped_updateAux _ _ _ _ _ _ h2
      · split
        · rw [shaped_setZero]; exact h2
        · exact h2
    · by_cases hp : pos ≤ (l + r) / 2
      · simp only [if_pos hp]
        exact ihl _ _ _ h1 hpos1 hp hw.1.2
      · simp only [if_neg hp]
        split
        · exact wf_setZero hw.1.2
        · exact hw.1.2
    · by_cases hp : (l + r) / 2 < pos
      · simp only [if_pos hp]
        exact ihr _ _ _ h2 (by omega) hpos2 hw.2
      · simp only [if_neg hp]
        split
        · exact wf_setZero hw.2
        · exact hw.2

theorem shaped_zeroAux (t : STree) (a b l r : ℕ) (z : Bool)
    (hs : shaped t a b = true) : shaped (zeroRangeAux t l r z) a b = true := by
  induction t generalizing a b z with
  | leaf p tg s =>
    obtain ⟨rfl, rfl⟩ := shaped_leaf_iff.mp hs
    by_cases h : l ≤ p ∧ p ≤ r <;> simp [zeroRangeAux, h, shaped]
  | node nl nr tg s lc rc ihl ihr =>
    obtain ⟨hab, rfl, rfl, h1, h2⟩ := shaped_node_iff.mp hs
    by_cases h : l ≤ nl ∧ nr ≤ r
    · simp only [zeroRangeAux, if_pos h]
      rw [shaped_node_iff]
      exact ⟨hab, rfl, rfl, h1, h2⟩
    · simp only [zeroRangeAux, if_neg h]
      rw [shaped_node_iff]
      refine ⟨hab, rfl, rfl, ?_, ?_⟩
      · split
        · exact ihl _ _ _ h1
        · split
          · rw [shaped_setZero]; exact h1
          · exact h1
      · split
        · exact ihr _ _ _ h2
        · split
          · rw [shaped_setZero]; exact h2
          · exact h2

theorem denote_zeroAux (t : STree) (a b l r : ℕ) (z : Bool) (hs : shaped t a b = true)
    (q : ℕ) (hq1 : a ≤ q) (hq2 : q ≤ b) :
    denote (zeroRangeAux t l r z) q =
      if z = true then 0 else if l ≤ q ∧ q ≤ r then 0 else denote t q := by
  induction t generalizing a b z with
  | leaf p tg s =>
    obtain ⟨rfl, rfl⟩ := shaped_leaf_iff.mp hs
    have hqp : q = p := by omega
    subst hqp
    by_cases h : l ≤ q ∧ q ≤ r
    · simp [zeroRangeAux, h, denote]
    · simp [zeroRangeAux, h, denote]
  | node nl nr tg s lc rc ihl ihr =>
    obtain ⟨hab, rfl, rfl, h1, h2⟩ := shaped_node_iff.mp hs
    by_cases h : l ≤ nl ∧ nr ≤ r
    · have hqr : l ≤ q ∧ q ≤ r := ⟨by omega, by omega⟩
      simp [zeroRangeAux, h, denote_tagged, hqr]
    · simp only [zeroRangeAux, if_neg h]
      simp only [denote_node, Bool.false_eq_true, if_false]
      by_cases hq : q ≤ (nl + nr) / 2
      · simp only [if_pos hq]
        by_cases hd : l ≤ (nl + nr) / 2
        · simp only [if_pos hd]
          rw [ihl _ _ _ h1 hq1 hq]
          by_cases hin : l ≤ q ∧ q ≤ r
          · simp only [if_pos hin]
            cases z <;> cases tg <;> simp
          · simp only [if_neg hin, denote_node, if_pos hq]
            cases z <;> cases tg <;> simp
        · have hin : ¬(l ≤ q ∧ q ≤ r) := by omega
          simp only [if_neg hd, if_neg hin, denote_node, if_pos hq]
          cases z <;> cases tg <;> simp [denote_setZero]
      · simp only [if_neg hq]
        by_cases hd : (nl + nr) / 2 < r
        · simp only [if_pos hd]
          rw [ihr _ _ _ h2 (by omega) hq2]
          by_cases hin : l ≤ q ∧ q ≤ r
          · simp only [if_pos hin]
            cases z <;> cases tg <;> simp
          · simp only [if_neg hin, denote_node, if_neg hq]
            cases z <;> cases tg <;> simp
        · have hin : ¬(l ≤ q ∧ q ≤ r) := by omega
          simp only [if_neg hd, if_neg hin, denote_node, if_neg hq]
          cases z <;> cases tg <;> simp [denote_setZero]

theorem wf_zeroAux (t : STree) (a b l r : ℕ) (z : Bool) (hs : shaped t a b = true)
    (hw : wf t = true) : wf (zeroRangeAux t l r z) = true := by
  induction t generalizing a b z with
  | leaf p tg s =>
    by_cases h : l ≤ p ∧ p ≤ r <;> simp [zeroRangeAux, h, wf]
  | node nl nr tg s lc rc ihl ihr =>
    obtain ⟨hab, rfl, rfl, h1, h2⟩ := shaped_node_iff.mp hs
    simp only [wf, Bool.and_eq_true, beq_iff_eq] at hw
    by_cases h : l ≤ nl ∧ nr ≤ r
    · simp only [zeroRangeAux, if_pos h]
      simp [wf, denote_tagged, Bool.and_eq_true, hw.1.2, hw.2]
    · simp only [zeroRangeAux, if_neg h]
      apply wf_node_of _ _ _ _ hab
      · split
        · exact shaped_zeroAux _ _ _ _ _ _ h1
        · split
          · rw [shaped_setZero]; exact h1
          · exact h1
      · split
        · exact shaped_zeroAux _ _ _ _ _ _ h2
        · split
          · rw [shaped_setZero]; exact h2
          · exact h2
      · split
        · exact ihl _ _ _ h1 hw.1.2
        · split
          · exact wf_setZero hw.1.2
          · exact hw.1.2
      · split
        · exact ihr _ _ _ h2 hw.2
        · split
          · exact wf_setZero hw.2
          · exact hw.2

/-- Pointwise form of "the pending flag composes with the node's tag" on the
left half. -/
theorem effD_left {nl nr : ℕ} {tg : Bool} {s : ℕ} {lc rc : STree} {z : Bool} {q : ℕ}
    (hq : q ≤ (nl + nr) / 2) :
    (if (z || tg) = true then 0 else denote lc q) =
      if z = true then 0 else denote (.node nl nr tg s lc rc) q := by
  cases z <;> cases tg <;> simp [denote_node, hq]

/-- Pointwise form of "the pending flag composes with the node's tag" on the
right half. -/
theorem effD_right {nl nr : ℕ} {tg : Bool} {s : ℕ} {lc rc : STree} {z : Bool} {q : ℕ}
    (hq : ¬(q ≤ (nl + nr) / 2)) :
    (if (z || tg) = true then 0 else denote rc q) =
      if z = true then 0 else denote (.node nl nr tg s lc rc) q := by
  cases z <;> cases tg <;> simp [denote_node, hq]

/-- Sum of an untagged node's contents splits into the children's sums. -/
theorem sum_denote_split {nl nr s' : ℕ} {lc' rc' : STree} (hab : nl < nr) :
    (∑ p in Finset.Icc nl nr, denote (.node nl nr false s' lc' rc') p)
      = (∑ p in Finset.Icc nl ((nl + nr) / 2), denote lc' p)
        + ∑ p in Finset.Icc ((nl + nr) / 2 + 1) nr, denote rc' p := by
  rw [sum_Icc_split _ nl ((nl + nr) / 2) nr (by omega) (by omega)]
  congr 1
  · refine Finset.sum_congr rfl fun p hp => ?_
    rw [Finset.mem_Icc] at hp
    simp [denote_node, hp.2]
  · refine Finset.sum_congr rfl fun p hp => ?_
    rw [Finset.mem_Icc] at hp
    have : ¬(p ≤ (nl + nr) / 2) := by omega
    simp [denote_node, this]

theorem shaped_queryAux (t : STree) (a b l r : ℕ) (z : Bool)
    (hs : shaped t a b = true) : shaped (queryRangeAux t l r z).2 a b = true := by
  induction t generalizing a b z with
  | leaf p tg s =>
    obtain ⟨rfl, rfl⟩ := shaped_leaf_iff.mp hs
    by_cases h : l ≤ p ∧ p ≤ r <;> simp [queryRangeAux, h, shaped]
  | node nl nr tg s lc rc ihl ihr =>
    obtain ⟨hab, rfl, rfl, h1, h2⟩ := shaped_node_iff.mp hs
    by_cases h : l ≤ nl ∧ nr ≤ r
    · simp only [queryRangeAux, if_pos h]
      rw [shaped_node_iff]
      exact ⟨hab, rfl, rfl, h1, h2⟩
    · simp only [queryRangeAux, if_neg h]
      rw [shaped_node_iff]
      refine ⟨hab, rfl, rfl, ?_, ?_⟩
      · split
        · exact ihl _ _ _ h1
        · split
          · rw [shaped_setZero]; exact h1
          · exact h1
      · split
        · exact ihr _ _ _ h2
        · split
          · rw [shaped_setZero]; exact h2
          · exact h2

theorem denote_queryAux (t : STree) (a b l r : ℕ) (z : Bool) (hs : shaped t a b = true)
    (q : ℕ) (hq1 : a ≤ q) (hq2 : q ≤ b) :
    denote (queryRangeAux t l r z).2 q = if z = true then 0 else denote t q := by
  induction t generalizing a b z with
  | leaf p tg s =>
    obtain ⟨rfl, rfl⟩ := shaped_leaf_iff.mp hs
    by_cases h : l ≤ p ∧ p ≤ r <;> simp [queryRangeAux, h, denote]
  | node nl nr tg s lc rc ihl ihr =>
    obtain ⟨hab, rfl, rfl, h1, h2⟩ := shaped_node_iff.mp hs
    by_cases h : l ≤ nl ∧ nr ≤ r
    · simp only [queryRangeAux, if_pos h]
      cases z <;> cases tg <;> simp [denote_node]
    · simp only [queryRangeAux, if_neg h]
      rw [denote_node]
      simp only [Bool.false_eq_true, if_false]
      by_cases hq : q ≤ (nl + nr) / 2
      · simp only [if_pos hq]
        by_cases hdl : l ≤ (nl + nr) / 2
        · simp only [if_pos hdl]
          rw [ihl _ _ _ h1 hq1 hq]
          exact effD_left hq
        · simp only [if_neg hdl]
          cases z <;> cases tg <;> simp [denote_setZero, denote_node, hq]
      · simp only [if_neg hq]
        by_cases hdr : (nl + nr) / 2 < r
        · simp only [if_pos hdr]
          rw [ihr _ _ _ h2 (by omega) hq2]
          exact effD_right hq
        · simp only [if_neg hdr]
          cases z <;> cases tg <;> simp [denote_setZero, denote_node, hq]

theorem wf_queryAux (t : STree) (a b l r : ℕ) (z : Bool) (hs : shaped t a b = true)
    (hw : wf t = true) : wf (queryRangeAux t l r z).2 = true := by
  induction t generalizing a b z with
  | leaf p tg s =>
    by_cases h : l ≤ p ∧ p ≤ r <;> simp [queryRangeAux, h, wf]
  | node nl nr tg s lc rc ihl ihr =>
    obtain ⟨hab, rfl, rfl, h1, h2⟩ := shaped_node_iff.mp hs
    simp only [wf, Bool.and_eq_true, beq_iff_eq] at hw
    by_cases h : l ≤ nl ∧ nr ≤ r
    · simp only [queryRangeAux, if_pos h]
      cases z
      · simpa [wf, Bool.and_eq_true, beq_iff_eq, hw.1.2, hw.2] using hw.1.1
      · simp [wf, denote_tagged, Bool.and_eq_true, hw.1.2, hw.2]
    · simp only [queryRangeAux, if_neg h]
      have epl : ∀ q, nl ≤ q → q ≤ (nl + nr) / 2 →
          denote (if l ≤ (nl + nr) / 2 then queryRangeAux lc l r (z || tg)
            else ((0 : ℕ), if (z || tg) = true then lc.setZero else lc)).2 q
          = if (z || tg) = true then 0 else denote lc q := by
        intro q hql hqr
        by_cases hdl : l ≤ (nl + nr) / 2
        · simp only [if_pos hdl]
          exact denote_queryAux _ _ _ _ _ _ h1 _ hql hqr
        · simp only [if_neg hdl]
          cases hzt : (z || tg) <;> simp [denote_setZero]
      have epr : ∀ q, (nl + nr) / 2 + 1 ≤ q → q ≤ nr →
          denote (if (nl + nr) / 2 < r then queryRangeAux rc l r (z || tg)
            else ((0 : ℕ), if (z || tg) = true then rc.setZero else rc)).2 q
          = if (z || tg) = true then 0 else denote rc q := by
        intro q hql hqr
        by_cases hdr : (nl + nr) / 2 < r
        · simp only [if_pos hdr]
          exact denote_queryAux _ _ _ _ _ _ h2 _ hql hqr
        · simp only [if_neg hdr]
          cases hzt : (z || tg) <;> simp [denote_setZero]
      simp only [wf, Bool.and_eq_true, beq_iff_eq]
      refine ⟨⟨?_, ?_⟩, ?_⟩
      · rw [sum_denote_split hab,
          Finset.sum_congr rfl fun q hq => epl q (Finset.mem_Icc.mp hq).1 (Finset.mem_Icc.mp hq).2,
          Finset.sum_congr rfl fun q hq => epr q (Finset.mem_Icc.mp hq).1 (Finset.mem_Icc.mp hq).2]
        cases z
        · cases htg : tg
          · subst htg
            rw [hw.1.1, sum_denote_split hab]
            simp
          · subst htg
            have hs0 : s = 0 := by simpa [denote_tagged] using hw.1.1
            simp [hs0]
        · simp
      · by_cases hdl : l ≤ (nl + nr) / 2
        · simp only [if_pos hdl]
          exact ihl _ _ _ h1 hw.1.2
        · simp only [if_neg hdl]
          split
          · exact wf_setZero hw.1.2
          · exact hw.1.2
      · by_cases hdr : (nl + nr) / 2 < r
        · simp only [if_pos hdr]
          exact ihr _ _ _ h2 hw.2
        · simp only [if_neg hdr]
          split
          · exact wf_setZero hw.2
          · exact hw.2

/-- A query over a range with no overlap hypothesis that is empty
(`r < l`, as in the finalization query when the last obstacle touches the
last column) returns `0`. -/
theorem queryAux_val_empty (t : STree) (a b l r : ℕ) (z : Bool)
    (hs : shaped t a b = true) (hrl : r < l) :
    (queryRangeAux t l r z).1 = 0 := by
  induction t generalizing a b z with
  | leaf p tg s =>
    have h : ¬(l ≤ p ∧ p ≤ r) := by omega
    simp [queryRangeAux, h]
  | node nl nr tg s lc rc ihl ihr =>
    obtain ⟨hab, rfl, rfl, h1, h2⟩ := shaped_node_iff.mp hs
    have h : ¬(l ≤ nl ∧ nr ≤ r) := by omega
    simp only [queryRangeAux, if_neg h]
    by_cases hdl : l ≤ (nl + nr) / 2
    · by_cases hdr : (nl + nr) / 2 < r
      · simp [if_pos hdl, if_pos hdr, ihl _ _ _ h1, ihr _ _ _ h2]
      · simp [if_pos hdl, if_neg hdr, ihl _ _ _ h1]
    · by_cases hdr : (nl + nr) / 2 < r
      · simp [if_neg hdl, if_pos hdr, ihr _ _ _ h2]
      · simp [if_neg hdl, if_neg hdr]

/-- If every tree cell inside the queried window is `0`, the query returns
`0` (regardless of how the window meets the node's range). -/
theorem queryAux_val_zero (t : STree) (a b l r : ℕ) (z : Bool)
    (hs : shaped t a b = true) (hw : wf t = true)
    (h0 : ∀ q, a ≤ q → q ≤ b → l ≤ q → q ≤ r →
      (if z = true then 0 else denote t q) = 0) :
    (queryRangeAux t l r z).1 = 0 := by
  induction t generalizing a b z with
  | leaf p tg s =>
    obtain ⟨rfl, rfl⟩ := shaped_leaf_iff.mp hs
    by_cases h : l ≤ p ∧ p ≤ r
    · have := h0 p le_rfl le_rfl h.1 h.2
      cases z
      · simpa [queryRangeAux, h, denote] using this
      · simp [queryRangeAux, h]
    · simp [queryRangeAux, h]
  | node nl nr tg s lc rc ihl ihr =>
    obtain ⟨hab, rfl, rfl, h1, h2⟩ := shaped_node_iff.mp hs
    simp only [wf, Bool.and_eq_true, beq_iff_eq] at hw
    by_cases h : l ≤ nl ∧ nr ≤ r
    · simp only [queryRangeAux, if_pos h]
      cases z
      · have : ∀ q ∈ Finset.Icc nl nr, denote (STree.node nl nr tg s lc rc) q = 0 := by
          intro q hq
          rw [Finset.mem_Icc] at hq
          simpa using h0 q hq.1 hq.2 (by omega) (by omega)
        have hsz : s = 0 := by
          rw [hw.1.1, Finset.sum_congr rfl this]
          simp
        simpa using hsz
      · simp
    · simp only [queryRangeAux, if_neg h]
      have hl0 : l ≤ (nl + nr) / 2 →
          (queryRangeAux lc l r (z || tg)).1 = 0 := by
        intro _
        refine ihl _ _ _ h1 hw.1.2 fun q hq1 hq2 hq3 hq4 => ?_
        rw [@effD_left nl nr tg s lc rc z q hq2]
        exact h0 q hq1 (by omega) hq3 hq4
      have hr0 : (nl + nr) / 2 < r →
          (queryRangeAux rc l r (z || tg)).1 = 0 := by
        intro _
        refine ihr _ _ _ h2 hw.2 fun q hq1 hq2 hq3 hq4 => ?_
        rw [@effD_right nl nr tg s lc rc z q (by omega)]
        exact h0 q (by omega) hq2 hq3 hq4
      by_cases hdl : l ≤ (nl + nr) / 2
      · by_cases hdr : (nl + nr) / 2 < r
        · simp [if_pos hdl, if_pos hdr, hl0 hdl, hr0 hdr]
        · simp [if_pos hdl, if_neg hdr, hl0 hdl]
      · by_cases hdr : (nl + nr) / 2 < r
        · simp [if_neg hdl, if_pos hdr, hr0 hdr]
        · simp [if_neg hdl, if_neg hdr]

/-- Query results are always reduced below `kMod`, provided every cell of the
tree inside the node range is (a covered leaf reports its raw cell). -/
theorem queryAux_val_lt (t : STree) (a b l r : ℕ) (z : Bool)
    (hs : shaped t a b = true) (hw : wf t = true)
    (hbnd : ∀ q, a ≤ q → q ≤ b → (if z = true then 0 else denote t q) < kMod) :
    (queryRangeAux t l r z).1 < kMod := by
  induction t generalizing a b z with
  | leaf p tg s =>
    obtain ⟨rfl, rfl⟩ := shaped_leaf_iff.mp hs
    by_cases h : l ≤ p ∧ p ≤ r
    · have := hbnd p le_rfl le_rfl
      cases z
      · simpa [queryRangeAux, h, denote] using this
      · simpa [queryRangeAux, h] using kMod_pos
    · simpa [queryRangeAux, h] using kMod_pos
  | node nl nr tg s lc rc ihl ihr =>
    obtain ⟨hab, rfl, rfl, h1, h2⟩ := shaped_node_iff.mp hs
    simp only [wf, Bool.and_eq_true, beq_iff_eq] at hw
    by_cases h : l ≤ nl ∧ nr ≤ r
    · simp only [queryRangeAux, if_pos h]
      cases z
      · have hgoal : s < kMod := by
          rw [hw.1.1]
          exact Nat.mod_lt _ kMod_pos
        simpa using hgoal
      · simpa using kMod_pos
    · simp only [queryRangeAux, if_neg h]
      by_cases hdl : l ≤ (nl + nr) / 2
      · by_cases hdr : (nl + nr) / 2 < r
        · simpa [if_pos hdl, if_pos hdr] using Nat.mod_lt _ kMod_pos
        · simpa [if_pos hdl, if_neg hdr] using Nat.mod_lt _ kMod_pos
      · by_cases hdr : (nl + nr) / 2 < r
        · simpa [if_neg hdl, if_pos hdr] using Nat.mod_lt _ kMod_pos
        · simpa [if_neg hdl, if_neg hdr] using kMod_pos

/-- Value of `queryRange` on a window that meets the node range: the sum of
the tree's contents over the intersection, mod `kMod`.  Cells inside the
window must be reduced (the driver only ever stores reduced values). -/
theorem queryAux_val_sum (t : STree) (a b l r : ℕ) (z : Bool)
    (hs : shaped t a b = true) (hw : wf t = true)
    (hlb : l ≤ b) (har : a ≤ r) (hlr : l ≤ r)
    (hbnd : ∀ q, max l a ≤ q → q ≤ min r b →
      (if z = true then 0 else denote t q) < kMod) :
    (queryRangeAux t l r z).1 =
      (∑ q in Finset.Icc (max l a) (min r b),
        if z = true then 0 else denote t q) % kMod := by
  induction t generalizing a b z with
  | leaf p tg s =>
    obtain ⟨rfl, rfl⟩ := shaped_leaf_iff.mp hs
    have hcov : l ≤ p ∧ p ≤ r := ⟨hlb, har⟩
    simp only [queryRangeAux, if_pos hcov]
    rw [Nat.max_eq_right hlb, Nat.min_eq_right har, Finset.Icc_self,
      Finset.sum_singleton]
    cases z
    · have := hbnd p (by omega) (by omega)
      simp only [denote] at this ⊢
      simpa using (Nat.mod_eq_of_lt (by simpa using this)).symm
    · simp
  | node nl nr tg s lc rc ihl ihr =>
    obtain ⟨hab, rfl, rfl, h1, h2⟩ := shaped_node_iff.mp hs
    simp only [wf, Bool.and_eq_true, beq_iff_eq] at hw
    by_cases h : l ≤ nl ∧ nr ≤ r
    · simp only [queryRangeAux, if_pos h]
      have e1 : max l nl = nl := by omega
      have e2 : min r nr = nr := by omega
      rw [e1, e2]
      cases z
      · simpa using hw.1.1
      · simp
    · simp only [queryRangeAux, if_neg h]
      by_cases hdl : l ≤ (nl + nr) / 2
      · have hbnd1 : ∀ q, max l nl ≤ q → q ≤ min r ((nl + nr) / 2) →
            (if (z || tg) = true then 0 else denote lc q) < kMod := by
          intro q hq1 hq2
          rw [@effD_left nl nr tg s lc rc z q (by omega)]
          exact hbnd q (by omega) (by omega)
        have ev1 : (queryRangeAux lc l r (z || tg)).1
            = (∑ q in Finset.Icc (max l nl) (min r ((nl + nr) / 2)),
                if z = true then 0 else denote (STree.node nl nr tg s lc rc) q)
              % kMod := by
          rw [ihl _ _ _ h1 hw.1.2 hdl har hbnd1]
          congr 1
          refine Finset.sum_congr rfl fun q hq => ?_
          rw [Finset.mem_Icc] at hq
          exact @effD_left nl nr tg s lc rc z q (by omega)
        by_cases hdr : (nl + nr) / 2 < r
        · have hbnd2 : ∀ q, max l ((nl + nr) / 2 + 1) ≤ q → q ≤ min r nr →
              (if (z || tg) = true then 0 else denote rc q) < kMod := by
            intro q hq1 hq2
            rw [@effD_right nl nr tg s lc rc z q (by omega)]
            exact hbnd q (by omega) (by omega)
          have ev2 : (queryRangeAux rc l r (z || tg)).1
              = (∑ q in Finset.Icc (max l ((nl + nr) / 2 + 1)) (min r nr),
                  if z = true then 0 else denote (STree.node nl nr tg s lc rc) q)
                % kMod := by
            rw [ihr _ _ _ h2 hw.2 hlb (by omega) hbnd2]
            congr 1
            refine Finset.sum_congr rfl fun q hq => ?_
            rw [Finset.mem_Icc] at hq
            exact @effD_right nl nr tg s lc rc z q (by omega)
          simp only [if_pos hdl, if_pos hdr]
          rw [ev1, ev2, Nat.zero_add, Nat.mod_mod, ← Nat.add_mod]
          congr 1
          have hu : Finset.Icc (max l nl) (min r ((nl + nr) / 2))
              ∪ Finset.Icc (max l ((nl + nr) / 2 + 1)) (min r nr)
              = Finset.Icc (max l nl) (min r nr) := by
            ext x
            simp only [Finset.mem_union, Finset.mem_Icc]
            omega
          have hd : Disjoint (Finset.Icc (max l nl) (min r ((nl + nr) / 2)))
              (Finset.Icc (max l ((nl + nr) / 2 + 1)) (min r nr)) := by
            rw [Finset.disjoint_left]
            intro x hx hy
            rw [Finset.mem_Icc] at hx hy
            omega
          rw [← hu, Finset.sum_union hd]
        · simp only [if_pos hdl, if_neg hdr]
          rw [ev1, show min r ((nl + nr) / 2) = min r nr from by omega,
            Nat.zero_add, Nat.mod_mod]
      · by_cases hdr : (nl + nr) / 2 < r
        · have hbnd2 : ∀ q, max l ((nl + nr) / 2 + 1) ≤ q → q ≤ min r nr →
              (if (z || tg) = true then 0 else denote rc q) < kMod := by
            intro q hq1 hq2
            rw [@effD_right nl nr tg s lc rc z q (by omega)]
            exact hbnd q (by omega) (by omega)
          have ev2 : (queryRangeAux rc l r (z || tg)).1
              = (∑ q in Finset.Icc (max l ((nl + nr) / 2 + 1)) (min r nr),
                  if z = true then 0 else denote (STree.node nl nr tg s lc rc) q)
                % kMod := by
            rw [ihr _ _ _ h2 hw.2 hlb (by omega) hbnd2]
            congr 1
            refine Finset.sum_congr rfl fun q hq => ?_
            rw [Finset.mem_Icc] at hq
            exact @effD_right nl nr tg s lc rc z q (by omega)
          simp only [if_neg hdl, if_pos hdr]
          rw [ev2, show max l ((nl + nr) / 2 + 1) = max l nl from by omega,
            Nat.zero_add, Nat.mod_mod]
        · exact absurd hlr (by omega)

/-!
## Driver-level wrappers (pending flag `false`)
-/

theorem shaped_updatePoint {t : STree} {a b : ℕ} (pos v : ℕ)
    (hs : shaped t a b = true) : shaped (updatePoint t pos v) a b = true :=
  shaped_updateAux t a b pos v false hs

theorem wf_updatePoint {t : STree} {a b : ℕ} {pos : ℕ} (v : ℕ)
    (hs : shaped t a b = true) (h1 : a ≤ pos) (h2 : pos ≤ b) (hw : wf t = true) :
    wf (updatePoint t pos v) = true :=
  wf_updateAux t a b pos v false hs h1 h2 hw

theorem denote_updatePoint {t : STree} {a b pos : ℕ} (v : ℕ)
    (hs : shaped t a b = true) (h1 : a ≤ pos) (h2 : pos ≤ b)
    {q : ℕ} (hq1 : a ≤ q) (hq2 : q ≤ b) :
    denote (updatePoint t pos v) q = if q = pos then v else denote t q := by
  simpa using denote_updateAux t a b pos v false hs h1 h2 q hq1 hq2

theorem shaped_zeroRange {t : STree} {a b : ℕ} (l r : ℕ)
    (hs : shaped t a b = true) : shaped (zeroRange t l r) a b = true :=
  shaped_zeroAux t a b l r false hs

theorem wf_zeroRange {t : STree} {a b : ℕ} (l r : ℕ)
    (hs : shaped t a b = true) (hw : wf t = true) : wf (zeroRange t l r) = true :=
  wf_zeroAux t a b l r false hs hw

theorem denote_zeroRange {t : STree} {a b : ℕ} (l r : ℕ)
    (hs : shaped t a b = true) {q : ℕ} (hq1 : a ≤ q) (hq2 : q ≤ b) :
    denote (zeroRange t l r) q = if l ≤ q ∧ q ≤ r then 0 else denote t q := by
  simpa using denote_zeroAux t a b l r false hs q hq1 hq2

theorem shaped_queryRange {t : STree} {a b : ℕ} (l r : ℕ)
    (hs : shaped t a b = true) : shaped (queryRange t l r).2 a b = true :=
  shaped_queryAux t a b l r false hs

theorem wf_queryRange {t : STree} {a b : ℕ} (l r : ℕ)
    (hs : shaped t a b = true) (hw : wf t = true) : wf (queryRange t l r).2 = true :=
  wf_queryAux t a b l r false hs hw

theorem denote_queryRange {t : STree} {a b : ℕ} (l r : ℕ)
    (hs : shaped t a b = true) {q : ℕ} (hq1 : a ≤ q) (hq2 : q ≤ b) :
    denote (queryRange t l r).2 q = denote t q := by
  simpa using denote_queryAux t a b l r false hs q hq1 hq2

/-- Value of an in-range, nonempty query on a reduced tree. -/
theorem queryRange_val {t : STree} {m l r : ℕ}
    (hs : shaped t 1 m = true) (hw : wf t = true)
    (h1 : 1 ≤ l) (h2 : l ≤ r) (h3 : r ≤ m)
    (hbnd : ∀ q, l ≤ q → q ≤ r → denote t q < kMod) :
    (queryRange t l r).1 = (∑ q in Finset.Icc l r, denote t q) % kMod := by
  have hv := queryAux_val_sum t 1 m l r false hs hw (le_trans h2 h3) (le_trans h1 h2) h2
    (by intro q hq1 hq2; simpa using hbnd q (by omega) (by omega))
  rw [queryRange, hv, Nat.max_eq_left h1, Nat.min_eq_left h3]
  simp

theorem queryRange_val_zero {t : STree} {a b : ℕ} (l r : ℕ)
    (hs : shaped t a b = true) (hw : wf t = true)
    (h0 : ∀ q, a ≤ q → q ≤ b → l ≤ q → q ≤ r → denote t q = 0) :
    (queryRange t l r).1 = 0 :=
  queryAux_val_zero t a b l r false hs hw (by intro q h1 h2 h3 h4; simpa using h0 q h1 h2 h3 h4)

theorem queryRange_val_lt {t : STree} {a b : ℕ} (l r : ℕ)
    (hs : shaped t a b = true) (hw : wf t = true)
    (hbnd : ∀ q, a ≤ q → q ≤ b → denote t q < kMod) :
    (queryRange t l r).1 < kMod :=
  queryAux_val_lt t a b l r false hs hw (by intro q h1 h2; simpa using hbnd q h1 h2)

theorem queryRange_val_empty {t : STree} {a b : ℕ} (l r : ℕ)
    (hs : shaped t a b = true) (hrl : r < l) : (queryRange t l r).1 = 0 :=
  queryAux_val_empty t a b l r false hs hrl

/-!
## The state invariant of the sweep
-/

/-- Invariant carried through the sweep: the tree has the `buildTree 1 m`
shape, satisfies the internal-sum invariant, and every cell is reduced. -/
def TInv (m : ℕ) (t : STree) : Prop :=
  shaped t 1 m = true ∧ wf t = true ∧ ∀ p, 1 ≤ p → p ≤ m → denote t p < kMod

theorem TInv_initState (m : ℕ) (hm : 1 ≤ m) (rects : List Rect) :
    TInv m (initState m rects).tree := by
  have hs : shaped (buildTree 1 m) 1 m = true := shaped_buildT _ _ _ hm (by omega)
  have hw : wf (buildTree 1 m) = true := wf_buildT _ _ _
  refine ⟨shaped_updatePoint _ _ hs, wf_updatePoint _ hs le_rfl hm hw, ?_⟩
  intro p hp1 hp2
  show denote (updatePoint (buildTree 1 m) 1 1) p < kMod
  rw [denote_updatePoint _ hs le_rfl hm hp1 hp2]
  split
  · decide
  · rw [buildTree, denote_buildT]
    exact kMod_pos

theorem TInv_updatePoint {m : ℕ} {t : STree} {pos : ℕ} (v : ℕ) (h : TInv m t)
    (h1 : 1 ≤ pos) (h2 : pos ≤ m) (hv : v < kMod) : TInv m (updatePoint t pos v) := by
  obtain ⟨hs, hw, hb⟩ := h
  refine ⟨shaped_updatePoint _ _ hs, wf_updatePoint _ hs h1 h2 hw, ?_⟩
  intro p hp1 hp2
  rw [denote_updatePoint _ hs h1 h2 hp1 hp2]
  split
  · exact hv
  · exact hb p hp1 hp2

theorem TInv_zeroRange {m : ℕ} {t : STree} (l r : ℕ) (h : TInv m t) :
    TInv m (zeroRange t l r) := by
  obtain ⟨hs, hw, hb⟩ := h
  refine ⟨shaped_zeroRange _ _ hs, wf_zeroRange _ _ hs hw, ?_⟩
  intro p hp1 hp2
  rw [denote_zeroRange _ _ hs hp1 hp2]
  split
  · exact kMod_pos
  · exact hb p hp1 hp2

theorem TInv_queryRange {m : ℕ} {t : STree} (l r : ℕ) (h : TInv m t) :
    TInv m (queryRange t l r).2 := by
  obtain ⟨hs, hw, hb⟩ := h
  refine ⟨shaped_queryRange _ _ hs, wf_queryRange _ _ hs hw, ?_⟩
  intro p hp1 hp2
  rw [denote_queryRange _ _ hs hp1 hp2]
  exact hb p hp1 hp2

/-!
## Characterisation of the ordered-set manoeuvres
-/

theorem lexMax_or (a b : ℕ × ℕ) : lexMax a b = a ∨ lexMax a b = b := by
  by_cases h : lexLe a b
  · right; simp [lexMax, h]
  · left; simp [lexMax, h]

theorem lexLe_lexMax_left (a b : ℕ × ℕ) : lexLe a (lexMax a b) := by
  by_cases h : lexLe a b
  · simp only [lexMax, if_pos h]
    exact h
  · simp [lexMax, h, lexLe_refl]

theorem lexLe_lexMax_right (a b : ℕ × ℕ) : lexLe b (lexMax a b) := by
  by_cases h : lexLe a b
  · simp [lexMax, h, lexLe_refl]
  · rcases lexLe_total a b with h2 | h2
    · exact absurd h2 h
    · simpa [lexMax, h] using h2

theorem segFoldMax_spec (s : Finset (ℕ × ℕ)) :
    (segFoldMax s = (0, 0) ∨ segFoldMax s ∈ s) ∧ ∀ e ∈ s, lexLe e (segFoldMax s) := by
  induction s using Finset.induction_on with
  | empty => simp [segFoldMax]
  | @insert a s ha ih =>
    have hins : segFoldMax (insert a s) = lexMax a (segFoldMax s) := by
      unfold segFoldMax
      rw [Finset.fold_insert ha]
      simp [id_eq]
    constructor
    · rw [hins]
      rcases lexMax_or a (segFoldMax s) with h | h
      · rw [h]
        exact Or.inr (Finset.mem_insert_self a s)
      · rw [h]
        rcases ih.1 with h2 | h2
        · exact Or.inl h2
        · exact Or.inr (Finset.mem_insert_of_mem h2)
    · intro e he
      rw [hins]
      rcases Finset.mem_insert.mp he with rfl | he2
      · exact lexLe_lexMax_left _ _
      · exact lexLe_trans (ih.2 e he2) (lexLe_lexMax_right _ _)

/-- The driver's predecessor query, characterised: with the sentinel present
it returns a member of the set with left endpoint at most the bound, maximal
in the set's order among all such members. -/
theorem segPred_spec (s : Finset (ℕ × ℕ)) (bound : ℕ) (hsent : (0, 0) ∈ s) :
    segPred s bound ∈ s ∧ (segPred s bound).1 ≤ bound ∧
      ∀ e ∈ s, e.1 ≤ bound → lexLe e (segPred s bound) := by
  have hmem : (0, 0) ∈ s.filter (fun e => e.1 ≤ bound) := by
    rw [Finset.mem_filter]
    exact ⟨hsent, by simp⟩
  obtain ⟨hor, hmax⟩ := segFoldMax_spec (s.filter (fun e => e.1 ≤ bound))
  refine ⟨?_, ?_, ?_⟩
  · rcases hor with h | h
    · rw [segPred, h]; exact hsent
    · exact (Finset.mem_filter.mp h).1
  · rcases hor with h | h
    · rw [segPred, h]; exact Nat.zero_le _
    · exact (Finset.mem_filter.mp h).2
  · intro e he hb
    exact hmax e (Finset.mem_filter.mpr ⟨he, hb⟩)

/-- The driver's maximum query, characterised. -/
theorem segMax_spec (s : Finset (ℕ × ℕ)) :
    (segMax s = (0, 0) ∨ segMax s ∈ s) ∧ ∀ e ∈ s, lexLe e (segMax s) :=
  segFoldMax_spec s

/-!
## Event buckets and phase bookkeeping
-/

theorem mem_addRanges {rects : List Rect} {i : ℕ} {e : ℕ × ℕ} :
    e ∈ addRanges rects i ↔ ∃ q ∈ rects, q.x1 = i ∧ (q.y1, q.y2) = e := by
  simp only [addRanges, List.mem_map, List.mem_filter, beq_iff_eq]
  constructor
  · rintro ⟨q, ⟨hq, hx⟩, he⟩
    exact ⟨q, hq, hx, he⟩
  · rintro ⟨q, hq, hx, he⟩
    exact ⟨q, ⟨hq, hx⟩, he⟩

theorem mem_delRanges {rects : List Rect} {i : ℕ} {e : ℕ × ℕ} :
    e ∈ delRanges rects i ↔ ∃ q ∈ rects, q.x2 + 1 = i ∧ (q.y1, q.y2) = e := by
  simp only [delRanges, List.mem_map, List.mem_filter, beq_iff_eq]
  constructor
  · rintro ⟨q, ⟨hq, hx⟩, he⟩
    exact ⟨q, hq, hx, he⟩
  · rintro ⟨q, hq, hx, he⟩
    exact ⟨q, ⟨hq, hx⟩, he⟩

theorem sortDesc_perm (lst : List (ℕ × ℕ)) : (sortDesc lst).Perm lst :=
  (List.reverse_perm _).trans (List.perm_insertionSort _ _)

theorem mem_sortDesc {lst : List (ℕ × ℕ)} {e : ℕ × ℕ} :
    e ∈ sortDesc lst ↔ e ∈ lst :=
  (sortDesc_perm lst).mem_iff

theorem mem_insFold {s : Finset (ℕ × ℕ)} {lst : List (ℕ × ℕ)} {e : ℕ × ℕ} :
    e ∈ insFold s lst ↔ e ∈ s ∨ e ∈ lst := by
  induction lst generalizing s with
  | nil => simp [insFold]
  | cons d ds ih =>
    show e ∈ insFold (insert d s) ds ↔ _
    rw [ih]
    simp only [Finset.mem_insert, List.mem_cons]
    tauto

theorem mem_delFold {s : Finset (ℕ × ℕ)} {lst : List (ℕ × ℕ)} {e : ℕ × ℕ} :
    e ∈ delFold s lst ↔ e ∈ s ∧ e ∉ lst := by
  induction lst generalizing s with
  | nil => simp [delFold]
  | cons d ds ih =>
    show e ∈ delFold (s.erase d) ds ↔ _
    rw [ih]
    simp only [Finset.mem_erase, List.mem_cons]
    tauto

theorem boundaryStep_segs (m : ℕ) (st : SState) (e : ℕ × ℕ) :
    (boundaryStep m st e).segs = st.segs := by
  rw [boundaryStep]
  split
  · rfl
  · dsimp only
    split <;> rfl

theorem boundaryPhase_segs (m : ℕ) (st : SState) (lst : List (ℕ × ℕ)) :
    (boundaryPhase m st lst).segs = st.segs := by
  induction lst generalizing st with
  | nil => rfl
  | cons d ds ih =>
    show (boundaryPhase m (boundaryStep m st d) ds).segs = _
    rw [ih, boundaryStep_segs]

theorem addPhase_segs (st : SState) (lst : List (ℕ × ℕ)) :
    (addPhase st lst).segs = insFold st.segs lst := by
  induction lst generalizing st with
  | nil => rfl
  | cons d ds ih =>
    show (addPhase _ ds).segs = _
    rw [ih]
    rfl

theorem stepRowWith_segs (m : ℕ) (st : SState) (proc dels : List (ℕ × ℕ)) :
    (stepRowWith m st proc dels).segs = insFold (delFold st.segs dels) proc := by
  rw [stepRowWith, addPhase_segs, boundaryPhase_segs]

theorem addRanges_bounds {n m : ℕ} {rects : List Rect}
    (hv : ∀ q ∈ rects, validRect n m q) (i : ℕ) :
    ∀ e ∈ addRanges rects i, 1 ≤ e.1 ∧ e.1 ≤ e.2 ∧ e.2 ≤ m := by
  intro e he
  obtain ⟨q, hq, _, he2⟩ := mem_addRanges.mp he
  obtain ⟨_, _, _, h4, h5, h6⟩ := hv q hq
  subst he2
  exact ⟨h4, h5, h6⟩

theorem TInv_boundaryStep {m : ℕ} {st : SState} (e : ℕ × ℕ) (he : e.2 ≤ m)
    (h : TInv m st.tree) : TInv m (boundaryStep m st e).tree := by
  by_cases h1 : e.2 = m
  · simp only [boundaryStep, if_pos h1]
    exact h
  · simp only [boundaryStep, if_neg h1]
    have hpos : e.2 + 1 ≤ m := by omega
    by_cases h2 : (segPred st.segs (e.2 + 1)).2 ≤ e.2
    · simp only [if_pos h2]
      have hq : TInv m (queryRange st.tree ((segPred st.segs (e.2 + 1)).2 + 1) (e.2 + 1)).2 :=
        TInv_queryRange _ _ h
      have hlt : (queryRange st.tree ((segPred st.segs (e.2 + 1)).2 + 1) (e.2 + 1)).1 < kMod := by
        obtain ⟨hs, hw, hb⟩ := h
        exact queryRange_val_lt _ _ hs hw hb
      exact TInv_updatePoint _ hq (by omega) hpos hlt
    · simp only [if_neg h2]
      exact TInv_updatePoint _ h (by omega) hpos kMod_pos

theorem TInv_boundaryPhase {m : ℕ} (lst : List (ℕ × ℕ)) {st : SState}
    (hall : ∀ e ∈ lst, e.2 ≤ m) (h : TInv m st.tree) :
    TInv m (boundaryPhase m st lst).tree := by
  induction lst generalizing st with
  | nil => exact h
  | cons d ds ih =>
    show TInv m (boundaryPhase m (boundaryStep m st d) ds).tree
    exact ih (fun e he => hall e (List.mem_cons_of_mem _ he))
      (TInv_boundaryStep _ (hall d (List.mem_cons_self _ _)) h)

theorem TInv_addPhase (lst : List (ℕ × ℕ)) {m : ℕ} {st : SState} (h : TInv m st.tree) :
    TInv m (addPhase st lst).tree := by
  induction lst generalizing st with
  | nil => exact h
  | cons d ds ih =>
    show TInv m (addPhase { tree := zeroRange st.tree d.1 d.2, segs := insert d st.segs } ds).tree
    exact ih (TInv_zeroRange _ _ h)

theorem TInv_stepRowWith {m : ℕ} {st : SState} (proc dels : List (ℕ × ℕ))
    (hall : ∀ e ∈ proc, e.2 ≤ m) (h : TInv m st.tree) :
    TInv m (stepRowWith m st proc dels).tree :=
  TInv_addPhase _ (TInv_boundaryPhase _ hall h)

theorem TInv_stepRow {n m : ℕ} {rects : List Rect}
    (hv : ∀ q ∈ rects, validRect n m q) {st : SState} (i : ℕ) (h : TInv m st.tree) :
    TInv m (stepRow m st (addRanges rects i) (delRanges rects i)).tree :=
  TInv_stepRowWith _ _
    (fun e he => (addRanges_bounds hv i e (mem_sortDesc.mp he)).2.2) h

theorem TInv_sweepTo {n m : ℕ} {rects : List Rect}
    (hv : ∀ q ∈ rects, validRect n m q) (hm : 1 ≤ m) (i : ℕ) :
    TInv m (sweepTo m rects i).tree := by
  induction i with
  | zero => exact TInv_initState m hm rects
  | succ j ih =>
    cases j with
    | zero => exact TInv_initState m hm rects
    | succ k =>
      show TInv m (stepRow m (sweepTo m rects (k + 1))
        (addRanges rects (k + 2)) (delRanges rects (k + 2))).tree
      exact TInv_stepRow hv _ ih

/-!
## Behaviour of the sweep on an empty obstacle list
-/

theorem stepRow_nil (m : ℕ) (st : SState) : stepRow m st [] [] = st := rfl

theorem sweepTo_noRects (m i : ℕ) : sweepTo m [] i = initState m [] := by
  induction i with
  | zero => rfl
  | succ j ih =>
    cases j with
    | zero => rfl
    | succ k =>
      show stepRow m (sweepTo m [] (k + 1)) (addRanges [] (k + 2)) (delRanges [] (k + 2)) = _
      rw [ih]
      rfl

/-- With no obstacles the program prints `1` whatever the grid size:
the only cell ever written is `ways[1] = 1`, and the final query sums the
whole row. -/
theorem engine_noRects (n m : ℕ) (hm : 1 ≤ m) : engine n m [] = 1 := by
  rw [engine, sweepTo_noRects]
  have hs : shaped (buildTree 1 m) 1 m = true := shaped_buildT _ _ _ hm (by omega)
  have hw : wf (buildTree 1 m) = true := wf_buildT _ _ _
  obtain ⟨hs2, hw2, hb2⟩ := TInv_initState m hm []
  have hsegs : segMax (initState m []).segs = (0, 0) := rfl
  rw [finalAnswer, hsegs]
  have hval := queryRange_val hs2 hw2 le_rfl hm le_rfl hb2
  rw [hval]
  have he : ∀ q ∈ Finset.Icc 1 m, denote (initState m []).tree q
      = if q = 1 then 1 else 0 := by
    intro q hq
    rw [Finset.mem_Icc] at hq
    show denote (updatePoint (buildTree 1 m) 1 1) q = _
    rw [denote_updatePoint _ hs le_rfl hm hq.1 hq.2]
    split
    · rfl
    · rw [buildTree, denote_buildT]
  rw [Finset.sum_congr rfl he, Finset.sum_ite_eq' (Finset.Icc 1 m) 1 (fun _ => 1)]
  have h1 : (1 : ℕ) ∈ Finset.Icc 1 m := by
    rw [Finset.mem_Icc]
    omega
  rw [if_pos h1]
  decide

/-!
## Claims
-/

/-- C1, counterexample: the spec says that with zero obstacles the answer is
`C(nRows+mCols-2, nRows-1) mod M` and in particular that `nRows=2, mCols=2`
yields `2`; the program prints `1` there (the only DP cell ever written is
`ways[1]=1` and no obstacle event ever runs, so the final whole-row query
returns `1`). -/
theorem C1_counterexample :
    ¬ (engine 2 2 [] = Nat.choose (2 + 2 - 2) (2 - 1) % kMod) := by decide

/-- C1, amended: for every `nRows ≥ 1`, `mCols ≥ 1` and zero obstacle
rectangles the engine's result is `1` (the program counts obstacle-relative
path classes, not raw monotone lattice paths; with no obstacles there is
exactly one class).  The `nRows=1, mCols=1` part of the original claim does
hold and is an instance of this statement. -/
theorem C1_no_obstacles (n m : ℕ) (_hn : 1 ≤ n) (hm : 1 ≤ m) : engine n m [] = 1 :=
  engine_noRects n m hm

/-- C1 witness: the amended statement instantiated at a 3 by 5 grid. -/
theorem C1_no_obstacles_witness : 1 ≤ 3 ∧ 1 ≤ 5 ∧ engine 3 5 [] = 1 :=
  ⟨by decide, by decide, C1_no_obstacles 3 5 (by decide) (by decide)⟩

/-!
## Exact active-set bookkeeping (for claims about `activeSegs`)
-/

/-- The column intervals of the obstacles whose row span contains row `i`. -/
def activeAt (rects : List Rect) (i : ℕ) : Finset (ℕ × ℕ) :=
  ((rects.filter (fun q => decide (q.x1 ≤ i ∧ i ≤ q.x2))).map
    (fun q => (q.y1, q.y2))).toFinset

theorem mem_activeAt {rects : List Rect} {i : ℕ} {e : ℕ × ℕ} :
    e ∈ activeAt rects i ↔ ∃ q ∈ rects, q.x1 ≤ i ∧ i ≤ q.x2 ∧ (q.y1, q.y2) = e := by
  simp only [activeAt, List.mem_toFinset, List.mem_map, List.mem_filter,
    decide_eq_true_eq]
  constructor
  · rintro ⟨q, ⟨hq, hx1, hx2⟩, he⟩
    exact ⟨q, hq, hx1, hx2, he⟩
  · rintro ⟨q, hq, hx1, hx2, he⟩
    exact ⟨q, ⟨hq, hx1, hx2⟩, he⟩

/-- Replays `for(auto segRange:delRanges[i]) activeSegs.erase(segRange);`
checking that every erased interval is present at the moment of its
erasure. -/
def eraseAllOk (s : Finset (ℕ × ℕ)) : List (ℕ × ℕ) → Bool
  | [] => true
  | d :: ds => decide (d ∈ s) && eraseAllOk (s.erase d) ds

theorem eraseAllOk_of {s : Finset (ℕ × ℕ)} {dels : List (ℕ × ℕ)}
    (hnd : dels.Nodup) (hmem : ∀ d ∈ dels, d ∈ s) : eraseAllOk s dels = true := by
  induction dels generalizing s with
  | nil => rfl
  | cons d ds ih =>
    obtain ⟨hd, hnd'⟩ := List.nodup_cons.mp hnd
    simp only [eraseAllOk, Bool.and_eq_true, decide_eq_true_eq]
    refine ⟨hmem d (List.mem_cons_self _ _), ih hnd' ?_⟩
    intro d' hd'
    rw [Finset.mem_erase]
    exact ⟨fun he => hd (he ▸ hd'), hmem d' (List.mem_cons_of_mem _ hd')⟩

/-- Exact bookkeeping of `activeSegs`: with pairwise distinct column
intervals, the set after processing row `i` is the sentinel together with the
intervals of exactly the obstacles whose row span contains `i`. -/
theorem segs_exact {n m : ℕ} {rects : List Rect}
    (hv : ∀ q ∈ rects, validRect n m q)
    (hnd : (rects.map (fun q => (q.y1, q.y2))).Nodup) :
    ∀ i, 1 ≤ i → i ≤ n →
      (sweepTo m rects i).segs = insert (0, 0) (activeAt rects i) := by
  intro i
  induction i with
  | zero => omega
  | succ j ih =>
    intro _ hle
    cases j with
    | zero =>
      show (initState m rects).segs = _
      show insFold {(0, 0)} (addRanges rects 1) = _
      ext e
      rw [mem_insFold, Finset.mem_insert, Finset.mem_singleton, mem_activeAt]
      constructor
      · rintro (rfl | he)
        · exact Or.inl rfl
        · obtain ⟨q, hq, hx, hint⟩ := mem_addRanges.mp he
          obtain ⟨v1, v2, _, _, _, _⟩ := hv q hq
          exact Or.inr ⟨q, hq, by omega, by omega, hint⟩
      · rintro (rfl | ⟨q, hq, hx1, hx2, hint⟩)
        · exact Or.inl rfl
        · obtain ⟨v1, v2, _, _, _, _⟩ := hv q hq
          exact Or.inr (mem_addRanges.mpr ⟨q, hq, by omega, hint⟩)
    | succ k =>
      have hprev := ih (by omega) (by omega)
      show (stepRow m (sweepTo m rects (k + 1))
        (addRanges rects (k + 2)) (delRanges rects (k + 2))).segs = _
      rw [stepRow, stepRowWith_segs, hprev]
      ext e
      rw [mem_insFold, mem_delFold, mem_sortDesc, Finset.mem_insert,
        Finset.mem_insert, mem_activeAt, mem_activeAt]
      constructor
      · rintro (⟨(rfl | hact), hndel⟩ | hadd)
        · exact Or.inl rfl
        · obtain ⟨q, hq, hx1, hx2, hint⟩ := hact
          have hx2' : q.x2 ≠ k + 1 := by
            intro hcontra
            exact hndel (mem_delRanges.mpr ⟨q, hq, by omega, hint⟩)
          exact Or.inr ⟨q, hq, by omega, by omega, hint⟩
        · obtain ⟨q, hq, hx, hint⟩ := mem_addRanges.mp hadd
          obtain ⟨_, v2, _, _, _, _⟩ := hv q hq
          exact Or.inr ⟨q, hq, by omega, by omega, hint⟩
      · rintro (rfl | ⟨q, hq, hx1, hx2, hint⟩)
        · refine Or.inl ⟨Or.inl rfl, fun hdel => ?_⟩
          obtain ⟨q, hq, _, hint⟩ := mem_delRanges.mp hdel
          obtain ⟨_, _, _, v4, _, _⟩ := hv q hq
          rw [Prod.mk.injEq] at hint
          omega
        · by_cases hx : q.x1 = k + 2
          · exact Or.inr (mem_addRanges.mpr ⟨q, hq, hx, hint⟩)
          · refine Or.inl ⟨Or.inr ⟨q, hq, by omega, by omega, hint⟩, fun hdel => ?_⟩
            obtain ⟨q', hq', hx', hint'⟩ := mem_delRanges.mp hdel
            have : q' = q := List.inj_on_of_nodup_map hnd hq' hq (hint'.trans hint.symm)
            subst this
            omega

/-- Body of claim C2: (a) after each processed row the active set is the
sentinel plus exactly the intervals of the obstacles whose row span contains
that row; (b) at each row the erase loop never erases an interval that is
absent from the set at the moment of erasure. -/
def C2Body (n m : ℕ) (rects : List Rect) : Prop :=
  (∀ i, 1 ≤ i → i ≤ n →
    (sweepTo m rects i).segs = insert (0, 0) (activeAt rects i)) ∧
  (∀ i, 2 ≤ i → i ≤ n →
    eraseAllOk
      (boundaryPhase m (sweepTo m rects (i - 1)) (sortDesc (addRanges rects i))).segs
      (delRanges rects i) = true)

/-- Claim C2 as stated: the invariant for every valid input, including
duplicate-equal intervals with overlapping row spans. -/
def C2Claim (n m : ℕ) (rects : List Rect) : Prop :=
  (∀ q ∈ rects, validRect n m q) → C2Body n m rects

/-- C2, counterexample: two identical rectangles `(1,1,1,1)` on a 2 by 2
grid.  Both copies collapse to one set element at row 1; at row 2 the erase
loop runs twice for the interval `(1,1)`, and the second erase is applied to
an interval absent from the set, so part (b) of the claim fails. -/
theorem C2_counterexample : ¬ C2Claim 2 2 [⟨1, 1, 1, 1⟩, ⟨1, 1, 1, 1⟩] := by
  intro h
  have h2 := (h (by decide)).2 2 (by decide) (by decide)
  exact absurd h2 (by decide)

/-- C2, amended: the invariant does hold whenever distinct obstacles carry
pairwise distinct column intervals (so set-collapse never conflates two live
obstacles): the members are exactly the intervals of the row-active
obstacles, each inserted at its activation row and removed at its expiration
row, and no erase ever misses. -/
theorem C2_distinct_intervals (n m : ℕ) (rects : List Rect)
    (hv : ∀ q ∈ rects, validRect n m q)
    (hnd : (rects.map (fun q => (q.y1, q.y2))).Nodup) : C2Body n m rects := by
  constructor
  · exact segs_exact hv hnd
  · intro i h2 hn
    rw [boundaryPhase_segs, segs_exact hv hnd (i - 1) (by omega) (by omega)]
    refine eraseAllOk_of ?_ ?_
    · have hsub : List.Sublist
          ((rects.filter (fun q => q.x2 + 1 == i)).map (fun q => (q.y1, q.y2)))
          (rects.map (fun q => (q.y1, q.y2))) := (List.filter_sublist _).map _
      exact hnd.sublist hsub
    · intro d hd
      obtain ⟨q, hq, hx, hint⟩ := mem_delRanges.mp hd
      rw [Finset.mem_insert]
      right
      rw [mem_activeAt]
      obtain ⟨v1, v2, _, _, _, _⟩ := hv q hq
      exact ⟨q, hq, by omega, by omega, hint⟩

/-- C2 witness: the amended statement instantiated at a single obstacle. -/
theorem C2_distinct_intervals_witness :
    (∀ q ∈ [(⟨1, 1, 2, 2⟩ : Rect)], validRect 2 2 q) ∧
      C2Body 2 2 [⟨1, 1, 2, 2⟩] :=
  ⟨by decide, C2_distinct_intervals 2 2 [⟨1, 1, 2, 2⟩] (by decide) (by decide)⟩

/-- The obstacle covers the destination cell `(nRows, mCols)`. -/
def coversDest (n m : ℕ) (q : Rect) : Prop :=
  q.x1 ≤ n ∧ n ≤ q.x2 ∧ q.y1 ≤ m ∧ m ≤ q.y2

instance (n m : ℕ) (q : Rect) : Decidable (coversDest n m q) := by
  unfold coversDest; infer_instance

/-- Claim C9 as stated: every valid input containing a rectangle covering the
destination yields answer 0. -/
def C9Claim : Prop :=
  ∀ (n m : ℕ) (rects : List Rect), (∀ q ∈ rects, validRect n m q) →
    (∃ q ∈ rects, coversDest n m q) → engine n m rects = 0

/-- C9, counterexample: rectangles `(1,1,2,2)` (covers the whole 2 by 2 grid,
in particular the destination) and `(1,1,1,2)` share the column interval
`(1,2)`; the second one's expiration at row 2 erases the shared set element,
so at finalization the set holds only the sentinel and the answer is the
whole-row sum `1`, not `0`. -/
theorem C9_counterexample : ¬ C9Claim := by
  intro h
  have := h 2 2 [⟨1, 1, 2, 2⟩, ⟨1, 1, 1, 2⟩] (by decide)
    ⟨⟨1, 1, 2, 2⟩, by decide, by decide⟩
  exact absurd this (by decide)

/-!
## Zeroing at activation (claim C3)
-/

theorem addPhase_preserves_zero (lst : List (ℕ × ℕ)) {m : ℕ} {st : SState}
    (hs : shaped st.tree 1 m = true) {p : ℕ} (hp1 : 1 ≤ p) (hp2 : p ≤ m)
    (h0 : denote st.tree p = 0) : denote (addPhase st lst).tree p = 0 := by
  induction lst generalizing st with
  | nil => exact h0
  | cons d ds ih =>
    show denote (addPhase ⟨zeroRange st.tree d.1 d.2, insert d st.segs⟩ ds).tree p = 0
    refine ih (shaped_zeroRange _ _ hs) ?_
    show denote (zeroRange st.tree d.1 d.2) p = 0
    rw [denote_zeroRange _ _ hs hp1 hp2]
    split
    · rfl
    · exact h0

theorem addPhase_zeroes (lst : List (ℕ × ℕ)) {m : ℕ} {st : SState}
    (hs : shaped st.tree 1 m = true) {e : ℕ × ℕ} (he : e ∈ lst) {p : ℕ}
    (hp1 : 1 ≤ p) (hp2 : p ≤ m) (hpe1 : e.1 ≤ p) (hpe2 : p ≤ e.2) :
    denote (addPhase st lst).tree p = 0 := by
  induction lst generalizing st with
  | nil => cases he
  | cons d ds ih =>
    rcases List.mem_cons.mp he with rfl | he2
    · show denote (addPhase ⟨zeroRange st.tree e.1 e.2, insert e st.segs⟩ ds).tree p = 0
      refine addPhase_preserves_zero ds (shaped_zeroRange _ _ hs) hp1 hp2 ?_
      show denote (zeroRange st.tree e.1 e.2) p = 0
      rw [denote_zeroRange _ _ hs hp1 hp2, if_pos ⟨hpe1, hpe2⟩]
    · show denote (addPhase ⟨zeroRange st.tree d.1 d.2, insert d st.segs⟩ ds).tree p = 0
      exact ih (shaped_zeroRange _ _ hs) he2

/-- Claim C3 as stated: after an active obstacle's activation row has been
processed (any row of its span that the sweep has reached, activation row 1
included), every range sum inside its column interval is 0. -/
def C3Claim : Prop :=
  ∀ (n m : ℕ) (rects : List Rect), (∀ q ∈ rects, validRect n m q) →
    ∀ q ∈ rects, ∀ i, q.x1 ≤ i → i ≤ q.x2 → i ≤ n →
      ∀ a b, q.y1 ≤ a → a ≤ b → b ≤ q.y2 →
        (queryRange (sweepTo m rects i).tree a b).1 = 0

/-- C3, counterexample: an obstacle activating at row 1 is never zeroed (the
row-1 preload performs no `zeroRange`), and `ways[1] = 1` is written after
the preload; for the rectangle `(1,1,2,1)` on a 2 by 2 grid the sum over
`[1,1]`, a sub-range of its column interval, is `1` right after row 1. -/
theorem C3_counterexample : ¬ C3Claim := by
  intro h
  have := h 2 2 [⟨1, 1, 2, 1⟩] (by decide) ⟨1, 1, 2, 1⟩ (by decide) 1
    (by decide) (by decide) (by decide) 1 1 (by decide) (by decide) (by decide)
  exact absurd this (by decide)

/-- C6 (confirmed): after `zeroRange(l,r)`, the query over `[l,r]` returns 0,
and it still returns 0 after any sequence of point updates at in-bounds
positions outside `[l,r]` (with arbitrary values — even unreduced ones).
"Tree state" is any tree of the built shape satisfying the sum invariant,
which every reachable state does. -/
theorem C6_zero_persists (m : ℕ) (t : STree) (hs : shaped t 1 m = true)
    (hw : wf t = true) (l r : ℕ) (hl : 1 ≤ l) (_hlr : l ≤ r) (hr : r ≤ m)
    (ops : List (ℕ × ℕ))
    (hops : ∀ pv ∈ ops, (1 ≤ pv.1 ∧ pv.1 ≤ m) ∧ (pv.1 < l ∨ r < pv.1)) :
    (queryRange (ops.foldl (fun t' pv => updatePoint t' pv.1 pv.2)
      (zeroRange t l r)) l r).1 = 0 := by
  suffices key : ∀ (ops' : List (ℕ × ℕ)) (t' : STree), shaped t' 1 m = true →
      wf t' = true → (∀ q, l ≤ q → q ≤ r → denote t' q = 0) →
      (∀ pv ∈ ops', (1 ≤ pv.1 ∧ pv.1 ≤ m) ∧ (pv.1 < l ∨ r < pv.1)) →
      (queryRange (ops'.foldl (fun t' pv => updatePoint t' pv.1 pv.2) t') l r).1 = 0 by
    refine key ops (zeroRange t l r) (shaped_zeroRange _ _ hs)
      (wf_zeroRange _ _ hs hw) ?_ hops
    intro q h1 h2
    rw [denote_zeroRange _ _ hs (by omega) (by omega), if_pos ⟨h1, h2⟩]
  intro ops'
  induction ops' with
  | nil =>
    intro t' hs' hw' h0 _
    exact queryRange_val_zero _ _ hs' hw' (fun q _ _ h3 h4 => h0 q h3 h4)
  | cons pv rest ih =>
    intro t' hs' hw' h0 hops'
    obtain ⟨⟨hp1, hp2⟩, hout⟩ := hops' pv (List.mem_cons_self _ _)
    refine ih (updatePoint t' pv.1 pv.2) (shaped_updatePoint _ _ hs')
      (wf_updatePoint _ hs' hp1 hp2 hw') ?_
      (fun e he => hops' e (List.mem_cons_of_mem _ he))
    intro q h1 h2
    rw [denote_updatePoint _ hs' hp1 hp2 (by omega) (by omega),
      if_neg (by omega)]
    exact h0 q h1 h2

/-- C6 witness: zero `[1,2]` of the fresh 3-column tree holding
`ways[1] = 1`, then write an arbitrary value at column 3. -/
theorem C6_zero_persists_witness :
    shaped (updatePoint (buildTree 1 3) 1 1) 1 3 = true ∧
      (queryRange ([((3 : ℕ), (5 : ℕ))].foldl
        (fun t' pv => updatePoint t' pv.1 pv.2)
        (zeroRange (updatePoint (buildTree 1 3) 1 1) 1 2)) 1 2).1 = 0 :=
  ⟨by decide, C6_zero_persists 3 (updatePoint (buildTree 1 3) 1 1) (by decide)
    (by decide) 1 2 (by decide) (by decide) (by decide) [(3, 5)] (by decide)⟩

/-- C7 (confirmed): with the sentinel `(0,0)` present, the predecessor
lookup with any bound returns a member interval whose left endpoint is at
most the bound, and that member is greatest in the set's lexicographic order
(so ties on the left endpoint are broken by the largest right endpoint)
among all members with left endpoint at most the bound; in particular it
never fails to return a member. -/
theorem C7_predecessor (s : Finset (ℕ × ℕ)) (hsent : (0, 0) ∈ s) (bound : ℕ) :
    segPred s bound ∈ s ∧ (segPred s bound).1 ≤ bound ∧
      ∀ e ∈ s, e.1 ≤ bound → lexLe e (segPred s bound) :=
  segPred_spec s bound hsent

/-- C7 witness: the statement at the set `{(0,0), (2,5), (2,7), (4,1)}` with
bound 3 (the lookup returns `(2,7)`). -/
theorem C7_predecessor_witness :
    ((0, 0) ∈ ({(0, 0), (2, 5), (2, 7), (4, 1)} : Finset (ℕ × ℕ))) ∧
      (segPred {(0, 0), (2, 5), (2, 7), (4, 1)} 3
          ∈ ({(0, 0), (2, 5), (2, 7), (4, 1)} : Finset (ℕ × ℕ)) ∧
        (segPred {(0, 0), (2, 5), (2, 7), (4, 1)} 3).1 ≤ 3 ∧
        ∀ e ∈ ({(0, 0), (2, 5), (2, 7), (4, 1)} : Finset (ℕ × ℕ)), e.1 ≤ 3 →
          lexLe e (segPred {(0, 0), (2, 5), (2, 7), (4, 1)} 3)) :=
  ⟨by decide, C7_predecessor {(0, 0), (2, 5), (2, 7), (4, 1)} (by decide) 3⟩

/-!
## Tree operations as data (claims C8 and C10)
-/

/-- One segment-tree operation of the public interface. -/
inductive TreeOp where
  | pset (pos val : ℕ)
  | zass (lo hi : ℕ)
  | qsum (lo hi : ℕ)
deriving DecidableEq

/-- Apply an operation to the tree (a query contributes its mutated tree). -/
def applyTreeOp (t : STree) : TreeOp → STree
  | .pset pos val => updatePoint t pos val
  | .zass lo hi => zeroRange t lo hi
  | .qsum lo hi => (queryRange t lo hi).2

/-- The operation stays inside the tree and away from position `p`:
a point write at an in-bounds position other than `p`, a zero-assign whose
range does not cover `p`, or any query. -/
def opAvoids (m p : ℕ) : TreeOp → Prop
  | .pset pos _ => 1 ≤ pos ∧ pos ≤ m ∧ pos ≠ p
  | .zass lo hi => ¬(lo ≤ p ∧ p ≤ hi)
  | .qsum _ _ => True

instance (m p : ℕ) : DecidablePred (opAvoids m p) := fun op => by
  cases op with
  | pset pos val => exact inferInstanceAs (Decidable (1 ≤ pos ∧ pos ≤ m ∧ pos ≠ p))
  | zass lo hi => exact inferInstanceAs (Decidable (¬(lo ≤ p ∧ p ≤ hi)))
  | qsum lo hi => exact inferInstanceAs (Decidable True)

/-- Claim C8 as stated: for every tree state, position and value,
`pointSet(p,v)` stores `v mod M` and `rangeSum(p,p)` returns `v mod M`. -/
def C8Claim : Prop :=
  ∀ (m : ℕ) (t : STree), shaped t 1 m = true → wf t = true →
    ∀ p, 1 ≤ p → p ≤ m → ∀ v, (queryRange (updatePoint t p v) p p).1 = v % kMod

/-- C8, counterexample: `updatePoint` writes the raw value
(`tree[x].sum = val`, no reduction); on the one-column tree the root is the
target leaf, so `rangeSum(1,1)` returns the stored `kMod` while
`kMod % kMod = 0`. -/
theorem C8_counterexample : ¬ C8Claim := by
  intro h
  exact absurd (h 1 (buildTree 1 1) (by decide) (by decide) 1 le_rfl le_rfl kMod)
    (by decide)

/-- C8, amended: for values `v < kMod` (every value the driver supplies is
already reduced), after `pointSet(p, v)` the query `rangeSum(p,p)` returns
`v mod M = v`, and keeps doing so under any subsequent operations that avoid
`p` — point writes elsewhere, zero-assigns not covering `p`, and queries. -/
theorem C8_point_write (m : ℕ) (t : STree) (hs : shaped t 1 m = true)
    (hw : wf t = true) (p : ℕ) (hp1 : 1 ≤ p) (hp2 : p ≤ m) (v : ℕ)
    (hv : v < kMod) (ops : List TreeOp) (hops : ∀ op ∈ ops, opAvoids m p op) :
    (queryRange (ops.foldl applyTreeOp (updatePoint t p v)) p p).1 = v % kMod := by
  suffices key : ∀ (ops' : List TreeOp) (t' : STree), shaped t' 1 m = true →
      wf t' = true → denote t' p = v → (∀ op ∈ ops', opAvoids m p op) →
      (queryRange (ops'.foldl applyTreeOp t') p p).1 = v % kMod by
    refine key ops (updatePoint t p v) (shaped_updatePoint _ _ hs)
      (wf_updatePoint _ hs hp1 hp2 hw) ?_ hops
    rw [denote_updatePoint _ hs hp1 hp2 hp1 hp2, if_pos rfl]
  intro ops'
  induction ops' with
  | nil =>
    intro t' hs' hw' hd _
    have hbnd : ∀ q, p ≤ q → q ≤ p → denote t' q < kMod := by
      intro q h1 h2
      have : q = p := by omega
      rw [this, hd]
      exact hv
    show (queryRange t' p p).1 = v % kMod
    rw [queryRange_val hs' hw' hp1 le_rfl hp2 hbnd, Finset.Icc_self,
      Finset.sum_singleton, hd]
  | cons op rest ih =>
    intro t' hs' hw' hd hops'
    have hop := hops' op (List.mem_cons_self _ _)
    have hrest := fun o ho => hops' o (List.mem_cons_of_mem _ ho)
    cases op with
    | pset pos val =>
      obtain ⟨h1, h2, h3⟩ := hop
      refine ih (updatePoint t' pos val) (shaped_updatePoint _ _ hs')
        (wf_updatePoint _ hs' h1 h2 hw') ?_ hrest
      rw [denote_updatePoint _ hs' h1 h2 hp1 hp2, if_neg (by omega)]
      exact hd
    | zass lo hi =>
      refine ih (zeroRange t' lo hi) (shaped_zeroRange _ _ hs')
        (wf_zeroRange _ _ hs' hw') ?_ hrest
      rw [denote_zeroRange _ _ hs' hp1 hp2, if_neg hop]
      exact hd
    | qsum lo hi =>
      refine ih (queryRange t' lo hi).2 (shaped_queryRange _ _ hs')
        (wf_queryRange _ _ hs' hw') ?_ hrest
      rw [denote_queryRange _ _ hs' hp1 hp2]
      exact hd

/-- C8 witness: write 5 at column 1 of the fresh 2-column tree, then a write
at column 2, a zero-assign of column 2 and a full query; the point query at
column 1 still answers 5. -/
theorem C8_point_write_witness :
    (5 : ℕ) < kMod ∧
      (queryRange ([TreeOp.pset 2 7, TreeOp.zass 2 2, TreeOp.qsum 1 2].foldl
        applyTreeOp (updatePoint (buildTree 1 2) 1 5)) 1 1).1 = 5 % kMod :=
  ⟨by decide, C8_point_write 2 (buildTree 1 2) (by decide) (by decide) 1
    (by decide) (by decide) 5 (by decide)
    [TreeOp.pset 2 7, TreeOp.zass 2 2, TreeOp.qsum 1 2] (by decide)⟩

/-!
## Observational refinement against an abstract array (claim C10)
-/

/-- In-bounds operation, with no constraint on written values (the claim as
stated quantifies over every value). -/
def validOpLoose (m : ℕ) : TreeOp → Prop
  | .pset pos _ => 1 ≤ pos ∧ pos ≤ m
  | .zass lo hi => 1 ≤ lo ∧ lo ≤ hi ∧ hi ≤ m
  | .qsum lo hi => 1 ≤ lo ∧ lo ≤ hi ∧ hi ≤ m

instance (m : ℕ) : DecidablePred (validOpLoose m) := fun op => by
  cases op with
  | pset pos val => exact inferInstanceAs (Decidable (1 ≤ pos ∧ pos ≤ m))
  | zass lo hi => exact inferInstanceAs (Decidable (1 ≤ lo ∧ lo ≤ hi ∧ hi ≤ m))
  | qsum lo hi => exact inferInstanceAs (Decidable (1 ≤ lo ∧ lo ≤ hi ∧ hi ≤ m))

/-- In-bounds operation writing only reduced values. -/
def validOp (m : ℕ) : TreeOp → Prop
  | .pset pos val => 1 ≤ pos ∧ pos ≤ m ∧ val < kMod
  | .zass lo hi => 1 ≤ lo ∧ lo ≤ hi ∧ hi ≤ m
  | .qsum lo hi => 1 ≤ lo ∧ lo ≤ hi ∧ hi ≤ m

instance (m : ℕ) : DecidablePred (validOp m) := fun op => by
  cases op with
  | pset pos val => exact inferInstanceAs (Decidable (1 ≤ pos ∧ pos ≤ m ∧ val < kMod))
  | zass lo hi => exact inferInstanceAs (Decidable (1 ≤ lo ∧ lo ≤ hi ∧ hi ≤ m))
  | qsum lo hi => exact inferInstanceAs (Decidable (1 ≤ lo ∧ lo ≤ hi ∧ hi ≤ m))

/-- Run a list of operations on the tree, collecting the query outputs. -/
def runTree : STree → List TreeOp → List ℕ × STree
  | t, [] => ([], t)
  | t, .pset pos val :: ops => runTree (updatePoint t pos val) ops
  | t, .zass lo hi :: ops => runTree (zeroRange t lo hi) ops
  | t, .qsum lo hi :: ops =>
    let q := queryRange t lo hi
    let rest := runTree q.2 ops
    (q.1 :: rest.1, rest.2)

/-- The abstract array of residues: `pointSet` stores the value reduced,
`zeroAssign` clears the range, `rangeSum` sums mod `kMod`. -/
def absSet (a : ℕ → ℕ) (p v : ℕ) : ℕ → ℕ := fun q => if q = p then v % kMod else a q

def absZero (a : ℕ → ℕ) (l r : ℕ) : ℕ → ℕ := fun q => if l ≤ q ∧ q ≤ r then 0 else a q

/-- Run the same operations on the abstract array. -/
def runAbs : (ℕ → ℕ) → List TreeOp → List ℕ × (ℕ → ℕ)
  | a, [] => ([], a)
  | a, .pset pos val :: ops => runAbs (absSet a pos val) ops
  | a, .zass lo hi :: ops => runAbs (absZero a lo hi) ops
  | a, .qsum lo hi :: ops =>
    let out := (∑ q in Finset.Icc lo hi, a q) % kMod
    let rest := runAbs a ops
    (out :: rest.1, rest.2)

/-- Claim C10 as stated: the built tree is observationally equivalent to the
abstract residue array under every in-bounds operation sequence, for every
written value. -/
def C10Claim : Prop :=
  ∀ m : ℕ, 1 ≤ m → ∀ ops : List TreeOp, (∀ op ∈ ops, validOpLoose m op) →
    (runTree (buildTree 1 m) ops).1 = (runAbs (fun _ => 0) ops).1

/-- C10, counterexample: `pointSet(1, kMod)` on the one-column tree stores
the raw `kMod` at the root leaf and the following `rangeSum(1,1)` reports it
unreduced, while the abstract residue array reports `0`. -/
theorem C10_counterexample : ¬ C10Claim := by
  intro h
  have := h 1 (by decide) [.pset 1 kMod, .qsum 1 1] (by decide)
  exact absurd this (by decide)

/-- C10, amended: for operation sequences whose written values are reduced
(`v < kMod`, as the engine guarantees), the segment tree is observationally
equivalent to the abstract array `a[1..mCols]` of residues: `pointSet(p,v)`
is `a[p] := v`, `zeroAssign(l,r)` clears `a[l..r]`, and every `rangeSum(l,r)`
output equals the abstract range sum mod `kMod`.  In particular the stale
zero-tag that `updatePoint` leaves on a leaf is never observed. -/
theorem C10_refinement (m : ℕ) (hm : 1 ≤ m) (ops : List TreeOp)
    (hops : ∀ op ∈ ops, validOp m op) :
    (runTree (buildTree 1 m) ops).1 = (runAbs (fun _ => 0) ops).1 := by
  suffices key : ∀ (ops' : List TreeOp) (t : STree) (a : ℕ → ℕ),
      shaped t 1 m = true → wf t = true →
      (∀ p, 1 ≤ p → p ≤ m → denote t p = a p ∧ a p < kMod) →
      (∀ op ∈ ops', validOp m op) →
      (runTree t ops').1 = (runAbs a ops').1 by
    refine key ops (buildTree 1 m) (fun _ => 0)
      (shaped_buildT _ _ _ hm (by omega)) (wf_buildT _ _ _) ?_ hops
    intro p _ _
    rw [buildTree, denote_buildT]
    exact ⟨rfl, kMod_pos⟩
  intro ops'
  induction ops' with
  | nil =>
    intro t a _ _ _ _
    rfl
  | cons op rest ih =>
    intro t a hs hw hr hops'
    have hop := hops' op (List.mem_cons_self _ _)
    have hrest := fun o ho => hops' o (List.mem_cons_of_mem _ ho)
    cases op with
    | pset pos val =>
      obtain ⟨h1, h2, h3⟩ := hop
      show (runTree (updatePoint t pos val) rest).1 = (runAbs (absSet a pos val) rest).1
      refine ih _ _ (shaped_updatePoint _ _ hs) (wf_updatePoint _ hs h1 h2 hw) ?_ hrest
      intro p hp1 hp2
      rw [denote_updatePoint _ hs h1 h2 hp1 hp2]
      by_cases hpp : p = pos
      · rw [if_pos hpp]
        constructor
        · show val = absSet a pos val p
          rw [absSet, if_pos hpp, Nat.mod_eq_of_lt h3]
        · show absSet a pos val p < kMod
          rw [absSet, if_pos hpp]
          exact Nat.mod_lt _ kMod_pos
      · rw [if_neg hpp]
        have := hr p hp1 hp2
        constructor
        · show denote t p = absSet a pos val p
          rw [absSet, if_neg hpp]
          exact this.1
        · show absSet a pos val p < kMod
          rw [absSet, if_neg hpp]
          exact this.2
    | zass lo hi =>
      show (runTree (zeroRange t lo hi) rest).1 = (runAbs (absZero a lo hi) rest).1
      refine ih _ _ (shaped_zeroRange _ _ hs) (wf_zeroRange _ _ hs hw) ?_ hrest
      intro p hp1 hp2
      rw [denote_zeroRange _ _ hs hp1 hp2]
      by_cases hin : lo ≤ p ∧ p ≤ hi
      · rw [if_pos hin]
        refine ⟨?_, ?_⟩
        · rw [absZero, if_pos hin]
        · rw [absZero, if_pos hin]
          exact kMod_pos
      · rw [if_neg hin]
        have := hr p hp1 hp2
        refine ⟨?_, ?_⟩ <;> rw [absZero, if_neg hin]
        · exact this.1
        · exact this.2
    | qsum lo hi =>
      obtain ⟨h1, h2, h3⟩ := hop
      show (queryRange t lo hi).1 :: (runTree (queryRange t lo hi).2 rest).1
          = ((∑ q in Finset.Icc lo hi, a q) % kMod) :: (runAbs a rest).1
      have hhead : (queryRange t lo hi).1 = (∑ q in Finset.Icc lo hi, a q) % kMod := by
        rw [queryRange_val hs hw h1 h2 h3 (fun q hq1 hq2 => by
          rw [(hr q (by omega) (by omega)).1]
          exact (hr q (by omega) (by omega)).2)]
        congr 1
        refine Finset.sum_congr rfl fun q hq => ?_
        rw [Finset.mem_Icc] at hq
        exact (hr q (by omega) (by omega)).1
      have htail : (runTree (queryRange t lo hi).2 rest).1 = (runAbs a rest).1 :=
        ih _ _ (shaped_queryRange _ _ hs) (wf_queryRange _ _ hs hw)
          (fun p hp1 hp2 => by
            rw [denote_queryRange _ _ hs hp1 hp2]
            exact hr p hp1 hp2) hrest
      rw [hhead, htail]

/-- C10 witness: the refinement applied to a concrete four-operation run on
a 2-column tree. -/
theorem C10_refinement_witness :
    (∀ op ∈ [TreeOp.pset 1 5, TreeOp.pset 2 7, TreeOp.zass 2 2, TreeOp.qsum 1 2],
        validOp 2 op) ∧
      (runTree (buildTree 1 2)
          [TreeOp.pset 1 5, TreeOp.pset 2 7, TreeOp.zass 2 2, TreeOp.qsum 1 2]).1
        = (runAbs (fun _ => 0)
          [TreeOp.pset 1 5, TreeOp.pset 2 7, TreeOp.zass 2 2, TreeOp.qsum 1 2]).1 :=
  ⟨by decide, C10_refinement 2 (by decide)
    [TreeOp.pset 1 5, TreeOp.pset 2 7, TreeOp.zass 2 2, TreeOp.qsum 1 2] (by decide)⟩

/-!
## Order (in)dependence of the sweep (claims C4 and C5)
-/

theorem addRanges_perm {r1 r2 : List Rect} (h : r1.Perm r2) (i : ℕ) :
    (addRanges r1 i).Perm (addRanges r2 i) := (h.filter _).map _

theorem delRanges_perm {r1 r2 : List Rect} (h : r1.Perm r2) (i : ℕ) :
    (delRanges r1 i).Perm (delRanges r2 i) := (h.filter _).map _

theorem sortDesc_congr {l1 l2 : List (ℕ × ℕ)} (h : l1.Perm l2) :
    sortDesc l1 = sortDesc l2 := by
  unfold sortDesc
  have hperm : (l1.insertionSort lexLe).Perm (l2.insertionSort lexLe) :=
    (List.perm_insertionSort _ _).trans (h.trans (List.perm_insertionSort _ _).symm)
  rw [List.eq_of_perm_of_sorted hperm (List.sorted_insertionSort _ _)
    (List.sorted_insertionSort _ _)]

theorem insFold_congr {s : Finset (ℕ × ℕ)} {l1 l2 : List (ℕ × ℕ)} (h : l1.Perm l2) :
    insFold s l1 = insFold s l2 := by
  ext e
  rw [mem_insFold, mem_insFold, h.mem_iff]

theorem delFold_congr {s : Finset (ℕ × ℕ)} {l1 l2 : List (ℕ × ℕ)} (h : l1.Perm l2) :
    delFold s l1 = delFold s l2 := by
  ext e
  rw [mem_delFold, mem_delFold, h.mem_iff]

theorem stepRowWith_congr (m : ℕ) (st : SState) (proc : List (ℕ × ℕ))
    {d1 d2 : List (ℕ × ℕ)} (hd : d1.Perm d2) :
    stepRowWith m st proc d1 = stepRowWith m st proc d2 := by
  rw [stepRowWith, stepRowWith, delFold_congr hd]

/-- Claim C4 as stated: traversing each row's activation bucket in any order
yields the same final answer. -/
def C4Claim (n m : ℕ) (rects : List Rect) : Prop :=
  (∀ q ∈ rects, validRect n m q) →
    ∀ ord : ℕ → List (ℕ × ℕ), (∀ j, (ord j).Perm (addRanges rects j)) →
      engineOrdered n m rects ord = engine n m rects

/-- C4, counterexample: obstacles `(2,2,3,3)` and `(2,5,3,8)` on a 3 by 9
grid.  In the driver's descending order the second boundary write at column
4 happens after the column-9 write reads the old frontier, and the answer is
1; in ascending order the column-9 query already includes the fresh value at
column 4 and the answer is 2. -/
theorem C4_counterexample : ¬ C4Claim 3 9 [⟨2, 2, 3, 3⟩, ⟨2, 5, 3, 8⟩] := by
  intro h
  have := h (by decide) (fun i => addRanges [⟨2, 2, 3, 3⟩, ⟨2, 5, 3, 8⟩] i)
    (fun i => List.Perm.refl _)
  exact absurd this (by decide)

/-- C4, amended: permuting a row's activation traversal leaves the active
interval set after every row unchanged (the insert/erase bookkeeping is
order-independent), but the boundary-phase tree writes are order-sensitive,
so the final answer can change — the descending order is load-bearing. -/
theorem C4_segs_order_invariant (m : ℕ) (rects : List Rect)
    (ord : ℕ → List (ℕ × ℕ)) (hord : ∀ i, (ord i).Perm (addRanges rects i))
    (r : ℕ) : (sweepToOrd m rects ord r).segs = (sweepTo m rects r).segs := by
  induction r with
  | zero => rfl
  | succ j ih =>
    cases j with
    | zero => rfl
    | succ k =>
      show (stepRowWith m (sweepToOrd m rects ord (k + 1)) (ord (k + 2))
          (delRanges rects (k + 2))).segs
        = (stepRow m (sweepTo m rects (k + 1)) (addRanges rects (k + 2))
          (delRanges rects (k + 2))).segs
      rw [stepRow, stepRowWith_segs, stepRowWith_segs, ih]
      ext e
      rw [mem_insFold, mem_insFold, (hord (k + 2)).mem_iff, mem_sortDesc]

/-- C4 witness: the amended statement at the counterexample input with the
identity (input-order) traversal, after row 2. -/
theorem C4_segs_order_invariant_witness :
    (sweepToOrd 9 [⟨2, 2, 3, 3⟩, ⟨2, 5, 3, 8⟩]
        (fun i => addRanges [⟨2, 2, 3, 3⟩, ⟨2, 5, 3, 8⟩] i) 2).segs
      = (sweepTo 9 [⟨2, 2, 3, 3⟩, ⟨2, 5, 3, 8⟩] 2).segs :=
  C4_segs_order_invariant 9 [⟨2, 2, 3, 3⟩, ⟨2, 5, 3, 8⟩]
    (fun i => addRanges [⟨2, 2, 3, 3⟩, ⟨2, 5, 3, 8⟩] i)
    (fun _ => List.Perm.refl _) 2

/-- C5 (confirmed): permuting the input rectangle list does not change the
printed answer — the per-row buckets become permutations of each other, the
boundary/activation traversals are re-sorted into the same list, and the set
insertions and erasures are order-independent. -/
theorem C5_input_order (n m : ℕ) (r1 r2 : List Rect) (hp : r1.Perm r2) :
    engine n m r1 = engine n m r2 := by
  have hsweep : ∀ r, sweepTo m r1 r = sweepTo m r2 r := by
    intro r
    induction r with
    | zero =>
      show initState m r1 = initState m r2
      rw [initState, initState, insFold_congr (addRanges_perm hp 1)]
    | succ j ih =>
      cases j with
      | zero =>
        show initState m r1 = initState m r2
        rw [initState, initState, insFold_congr (addRanges_perm hp 1)]
      | succ k =>
        show stepRow m (sweepTo m r1 (k + 1)) (addRanges r1 (k + 2)) (delRanges r1 (k + 2))
          = stepRow m (sweepTo m r2 (k + 1)) (addRanges r2 (k + 2)) (delRanges r2 (k + 2))
        rw [ih, stepRow, stepRow, sortDesc_congr (addRanges_perm hp (k + 2))]
        exact stepRowWith_congr _ _ _ (delRanges_perm hp (k + 2))
  rw [engine, engine, hsweep n]

/-- C5 witness: swapping two rectangles leaves the answer unchanged. -/
theorem C5_input_order_witness :
    ([⟨1, 1, 1, 1⟩, ⟨2, 2, 2, 2⟩] : List Rect).Perm [⟨2, 2, 2, 2⟩, ⟨1, 1, 1, 1⟩] ∧
      engine 3 2 [⟨1, 1, 1, 1⟩, ⟨2, 2, 2, 2⟩] = engine 3 2 [⟨2, 2, 2, 2⟩, ⟨1, 1, 1, 1⟩] :=
  ⟨by decide, C5_input_order 3 2 _ _ (by decide)⟩

/-!
## The persistent zero invariant of the sweep

Columns strictly inside an active obstacle's interval stay zero from the
obstacle's activation row to the end of its span — except column 1, which
holds the base value until some obstacle activating at a row `≥ 2` covers
it.  This is the engine's central correctness invariant; it needs pairwise
distinct column intervals (claim C2's amended hypothesis), since duplicate
intervals break the event bookkeeping.
-/

/-- The invariant at the state reached after processing row `i`. -/
def ZProp (_m : ℕ) (rects : List Rect) (i : ℕ) (t : STree) : Prop :=
  (∀ q ∈ rects, q.x1 ≤ i → i ≤ q.x2 →
    ∀ c, q.y1 ≤ c → c ≤ q.y2 → 2 ≤ c → denote t c = 0) ∧
  (∀ q ∈ rects, 2 ≤ q.x1 → q.x1 ≤ i → q.y1 = 1 → denote t 1 = 0)

/-- During a boundary phase at row `i+1`, a corridor query whose write column
`B` sits inside an interval active at row `i` evaluates to zero: the
predecessor lies strictly to the right of that interval's left endpoint, so
the whole queried corridor is inside the interval's zeroed cells. -/
theorem boundary_ans_zero {n m : ℕ} {rects : List Rect} {i : ℕ} {st : SState}
    (hv : ∀ q ∈ rects, validRect n m q)
    (hseg : st.segs = insert (0, 0) (activeAt rects i))
    (hT : TInv m st.tree) (hZ : ZProp m rects i st.tree)
    {q : Rect} (hq : q ∈ rects) (hx1 : q.x1 ≤ i) (hx2 : i ≤ q.x2)
    {B : ℕ} (hcy1 : q.y1 ≤ B) (hcy2 : B ≤ q.y2)
    (hpr : (segPred st.segs B).2 < B) :
    (queryRange st.tree ((segPred st.segs B).2 + 1) B).1 = 0 := by
  obtain ⟨hs, hw, hb⟩ := hT
  obtain ⟨v1, v2, v3, v4, v5, v6⟩ := hv q hq
  have hsent : (0, 0) ∈ st.segs := by
    rw [hseg]
    exact Finset.mem_insert_self _ _
  obtain ⟨hpm, hpb, hpmax⟩ := segPred_spec st.segs B hsent
  have hqin : (q.y1, q.y2) ∈ st.segs := by
    rw [hseg, Finset.mem_insert]
    exact Or.inr (mem_activeAt.mpr ⟨q, hq, hx1, hx2, rfl⟩)
  have hqle := hpmax _ hqin (by simpa using hcy1)
  rcases hP : segPred st.segs B with ⟨P1, P2⟩
  rw [hP] at hqle hpm hpr
  simp only [lexLe] at hqle
  -- the predecessor starts strictly right of q's left endpoint
  have hp1 : q.y1 < P1 := by
    rcases hqle with h | h
    · simpa using h
    · exfalso
      have h2 : q.y2 ≤ P2 := by simpa using h.2
      simp only [] at hpr
      omega
  -- the predecessor is a genuine active interval, so P1 ≤ P2
  have hpact : (P1, P2) ∈ activeAt rects i := by
    rw [hseg, Finset.mem_insert] at hpm
    rcases hpm with h | h
    · exfalso
      rw [Prod.mk.injEq] at h
      omega
    · exact h
  obtain ⟨qp, hqp, _, _, hqpint⟩ := mem_activeAt.mp hpact
  obtain ⟨_, _, _, w4, w5, w6⟩ := hv qp hqp
  rw [Prod.mk.injEq] at hqpint
  have hP12 : P1 ≤ P2 := by omega
  refine queryRange_val_zero _ _ hs hw ?_
  intro c' hc1' hc2' hc3' hc4'
  simp only [] at hc3'
  exact hZ.1 q hq hx1 hx2 c' (by omega) (by omega) (by omega)

/-- One boundary-loop iteration preserves the invariant: the only write goes
to column `y+1 ≥ 2`, and its value is zero whenever that column lies inside
an interval active at row `i`. -/
theorem ZProp_boundaryStep {n m : ℕ} {rects : List Rect} {i : ℕ} {st : SState}
    (hv : ∀ q ∈ rects, validRect n m q)
    (hseg : st.segs = insert (0, 0) (activeAt rects i))
    (hT : TInv m st.tree) (hZ : ZProp m rects i st.tree)
    (e : ℕ × ℕ) (he1 : 1 ≤ e.2) (he2 : e.2 ≤ m) :
    ZProp m rects i (boundaryStep m st e).tree := by
  obtain ⟨hs, hw, hb⟩ := hT
  by_cases hm1 : e.2 = m
  · simp only [boundaryStep, if_pos hm1]
    exact hZ
  · simp only [boundaryStep, if_neg hm1]
    have hBm : e.2 + 1 ≤ m := by omega
    have hm1' : 1 ≤ m := by omega
    by_cases hpr : (segPred st.segs (e.2 + 1)).2 ≤ e.2
    · simp only [if_pos hpr]
      have hsq : shaped (queryRange st.tree
          ((segPred st.segs (e.2 + 1)).2 + 1) (e.2 + 1)).2 1 m = true :=
        shaped_queryRange _ _ hs
      constructor
      · intro q hq hx1 hx2 c hc1 hc2 hc3
        have hcm : c ≤ m := le_trans hc2 (hv q hq).2.2.2.2.2
        rw [denote_updatePoint _ hsq (by omega) hBm (by omega) hcm]
        split
        · next hceq =>
          subst hceq
          exact boundary_ans_zero hv hseg ⟨hs, hw, hb⟩ hZ hq hx1 hx2 hc1 hc2
            (by omega)
        · rw [denote_queryRange _ _ hs (by omega) hcm]
          exact hZ.1 q hq hx1 hx2 c hc1 hc2 hc3
      · intro q hq hx1 hx2 hy1
        rw [denote_updatePoint _ hsq (by omega) hBm (by omega) hm1',
          if_neg (by omega), denote_queryRange _ _ hs (by omega) hm1']
        exact hZ.2 q hq hx1 hx2 hy1
    · simp only [if_neg hpr]
      constructor
      · intro q hq hx1 hx2 c hc1 hc2 hc3
        have hcm : c ≤ m := le_trans hc2 (hv q hq).2.2.2.2.2
        rw [denote_updatePoint _ hs (by omega) hBm (by omega) hcm]
        split
        · rfl
        · exact hZ.1 q hq hx1 hx2 c hc1 hc2 hc3
      · intro q hq hx1 hx2 hy1
        rw [denote_updatePoint _ hs (by omega) hBm (by omega) hm1',
          if_neg (by omega)]
        exact hZ.2 q hq hx1 hx2 hy1

/-- The whole boundary loop of a row preserves the invariant (the active set
is untouched during this loop, so every step sees the same `segs`). -/
theorem ZProp_boundaryPhase {n m : ℕ} {rects : List Rect} {i : ℕ} {st : SState}
    (hv : ∀ q ∈ rects, validRect n m q)
    (hseg : st.segs = insert (0, 0) (activeAt rects i))
    (hT : TInv m st.tree) (hZ : ZProp m rects i st.tree)
    (lst : List (ℕ × ℕ)) (hall : ∀ e ∈ lst, 1 ≤ e.2 ∧ e.2 ≤ m) :
    ZProp m rects i (boundaryPhase m st lst).tree := by
  induction lst generalizing st with
  | nil => exact hZ
  | cons d ds ih =>
    have h1 := hall d (List.mem_cons_self _ _)
    show ZProp m rects i (boundaryPhase m (boundaryStep m st d) ds).tree
    refine ih ?_ ?_ ?_ (fun e he => hall e (List.mem_cons_of_mem _ he))
    · rw [boundaryStep_segs]
      exact hseg
    · exact TInv_boundaryStep _ h1.2 hT
    · exact ZProp_boundaryStep hv hseg hT hZ d h1.1 h1.2

/-- A full row step carries the invariant from row `i` to row `i + 1`:
intervals activating at `i + 1` are zeroed by the activation loop's
`zeroRange` (column 1 included), and cells of continuing intervals stay zero
through the boundary loop. -/
theorem ZProp_stepRow {n m : ℕ} {rects : List Rect} {i : ℕ} {st : SState}
    (hv : ∀ q ∈ rects, validRect n m q)
    (hseg : st.segs = insert (0, 0) (activeAt rects i))
    (hT : TInv m st.tree) (hZ : ZProp m rects i st.tree) (dels : List (ℕ × ℕ)) :
    ZProp m rects (i + 1)
      (stepRow m st (addRanges rects (i + 1)) dels).tree := by
  have hall : ∀ e ∈ sortDesc (addRanges rects (i + 1)), 1 ≤ e.2 ∧ e.2 ≤ m := by
    intro e he
    obtain ⟨b1, b2, b3⟩ := addRanges_bounds hv (i + 1) e (mem_sortDesc.mp he)
    exact ⟨by omega, b3⟩
  have hT1 : TInv m (boundaryPhase m st (sortDesc (addRanges rects (i + 1)))).tree :=
    TInv_boundaryPhase _ (fun e he => (hall e he).2) hT
  have hZ1 : ZProp m rects i (boundaryPhase m st (sortDesc (addRanges rects (i + 1)))).tree :=
    ZProp_boundaryPhase hv hseg hT hZ _ hall
  show ZProp m rects (i + 1) (addPhase
    ⟨(boundaryPhase m st (sortDesc (addRanges rects (i + 1)))).tree,
      delFold (boundaryPhase m st (sortDesc (addRanges rects (i + 1)))).segs dels⟩
    (sortDesc (addRanges rects (i + 1)))).tree
  constructor
  · intro q hq hx1 hx2 c hc1 hc2 hc3
    have hcm : c ≤ m := le_trans hc2 (hv q hq).2.2.2.2.2
    have hc1' : 1 ≤ c := by omega
    by_cases hact : q.x1 = i + 1
    · refine addPhase_zeroes _ ?_
        (mem_sortDesc.mpr (mem_addRanges.mpr ⟨q, hq, hact, rfl⟩)) hc1' hcm hc1 hc2
      exact hT1.1
    · refine addPhase_preserves_zero _ ?_ hc1' hcm ?_
      · exact hT1.1
      · exact hZ1.1 q hq (by omega) (by omega) c hc1 hc2 hc3
  · intro q hq hq2 hx1 hy1
    obtain ⟨_, _, _, v4, v5, v6⟩ := hv q hq
    have hm1 : 1 ≤ m := by omega
    by_cases hact : q.x1 = i + 1
    · refine addPhase_zeroes _ ?_
        (mem_sortDesc.mpr (mem_addRanges.mpr ⟨q, hq, hact, rfl⟩)) le_rfl hm1 ?_ ?_
      · exact hT1.1
      · show q.y1 ≤ 1
        omega
      · show 1 ≤ q.y2
        omega
    · refine addPhase_preserves_zero _ ?_ le_rfl hm1 ?_
      · exact hT1.1
      · exact hZ1.2 q hq hq2 (by omega) hy1

/-- The invariant holds at row 1: the initial tree is zero everywhere except
column 1, and no obstacle with `x1 ≥ 2` is active yet. -/
theorem ZProp_initState {n m : ℕ} {rects : List Rect}
    (hv : ∀ q ∈ rects, validRect n m q) (hm : 1 ≤ m) :
    ZProp m rects 1 (initState m rects).tree := by
  constructor
  · intro q hq _ _ c hc1 hc2 hc3
    have hcm : c ≤ m := le_trans hc2 (hv q hq).2.2.2.2.2
    have hs : shaped (buildTree 1 m) 1 m = true := shaped_buildT _ _ _ hm (by omega)
    show denote (updatePoint (buildTree 1 m) 1 1) c = 0
    rw [denote_updatePoint _ hs le_rfl hm (by omega) hcm,
      if_neg (by omega), buildTree, denote_buildT]
  · intro q hq hq2 hx1 _
    exact absurd hx1 (by omega)

/-- The persistent zero invariant, proved down the whole sweep.  It needs
pairwise distinct column intervals so that the active-set bookkeeping is
exact (claim C2's amended hypothesis). -/
theorem ZInv_sweepTo {n m : ℕ} {rects : List Rect}
    (hv : ∀ q ∈ rects, validRect n m q)
    (hnd : (rects.map (fun q => (q.y1, q.y2))).Nodup)
    (hm : 1 ≤ m) :
    ∀ i, 1 ≤ i → i ≤ n → ZProp m rects i (sweepTo m rects i).tree := by
  intro i
  induction i with
  | zero => omega
  | succ j ih =>
    intro _ hle
    cases j with
    | zero =>
      show ZProp m rects 1 (initState m rects).tree
      exact ZProp_initState hv hm
    | succ k =>
      have hk1 : 1 ≤ k + 1 := by omega
      have hkn : k + 1 ≤ n := by omega
      have hseg := segs_exact hv hnd (k + 1) hk1 hkn
      have hT := TInv_sweepTo hv hm (k + 1)
      have hZ := ih hk1 (by omega)
      show ZProp m rects (k + 2) (stepRow m (sweepTo m rects (k + 1))
        (addRanges rects (k + 2)) (delRanges rects (k + 2))).tree
      exact ZProp_stepRow hv hseg hT hZ (delRanges rects (k + 2))

/-- C3, amended: with pairwise distinct column intervals, the zero persists —
at every processed row of an active obstacle's span, the sum over any
sub-range of its column interval is 0, except that for an obstacle
activating at row 1 the sub-range must avoid column 1 (the row-1 preload
performs no `zeroRange`, and `ways[1] = 1` is written after it).  Distinct
intervals are needed because duplicate-equal intervals collapse in
`activeSegs` and a premature erase breaks the predecessor structure. -/
theorem C3_zero_in_active (n m : ℕ) (rects : List Rect)
    (hv : ∀ q ∈ rects, validRect n m q)
    (hnd : (rects.map (fun q => (q.y1, q.y2))).Nodup)
    (q : Rect) (hq : q ∈ rects) (i : ℕ) (hx1 : q.x1 ≤ i) (hx2 : i ≤ q.x2)
    (hin : i ≤ n) (a b : ℕ) (ha : q.y1 ≤ a) (_hab : a ≤ b) (hb : b ≤ q.y2)
    (h2 : 2 ≤ a ∨ 2 ≤ q.x1) :
    (queryRange (sweepTo m rects i).tree a b).1 = 0 := by
  obtain ⟨v1, v2, v3, v4, v5, v6⟩ := hv q hq
  have hm : 1 ≤ m := by omega
  have hi1 : 1 ≤ i := by omega
  obtain ⟨hs, hw, _⟩ := TInv_sweepTo hv hm i
  have hZ := ZInv_sweepTo hv hnd hm i hi1 hin
  refine queryRange_val_zero _ _ hs hw ?_
  intro p hp1 hp2 hpa hpb
  by_cases hp : 2 ≤ p
  · exact hZ.1 q hq hx1 hx2 p (by omega) (by omega) hp
  · have hp1' : p = 1 := by omega
    subst hp1'
    have hqx : 2 ≤ q.x1 := by
      rcases h2 with h | h
      · omega
      · exact h
    exact hZ.2 q hq hqx hx1 (by omega)

/-- C3 witness: the rectangle `(2,1,3,2)` in a 3 by 3 grid, querying its
whole column interval at row 3 — one row past its activation row, so the
zero has persisted through a full row step. -/
theorem C3_zero_in_active_witness :
    (∀ q ∈ [(⟨2, 1, 3, 2⟩ : Rect)], validRect 3 3 q) ∧
      (queryRange (sweepTo 3 [⟨2, 1, 3, 2⟩] 3).tree 1 2).1 = 0 :=
  ⟨by decide, C3_zero_in_active 3 3 _ (by decide) (by decide) ⟨2, 1, 3, 2⟩
    (by decide) 3 (by decide) (by decide) (by decide) 1 2 (by decide)
    (by decide) (by decide) (Or.inr (by decide))⟩

/-- C9, amended: every valid input with pairwise distinct column intervals
containing a rectangle that covers the destination yields answer 0.  The
final query runs over `[mx.r+1, mCols]` where `mx` is the lexicographically
largest active interval; the covering rectangle's interval ends at `mCols`,
so either `mx` also ends at `mCols` (empty query) or `mx` starts strictly
right of the covering interval's left end and the queried cells all lie
strictly inside the covering interval, where the persistent invariant keeps
them zero. -/
theorem C9_distinct_cover (n m : ℕ) (rects : List Rect)
    (hv : ∀ q ∈ rects, validRect n m q)
    (hnd : (rects.map (fun q => (q.y1, q.y2))).Nodup)
    (hc : ∃ q ∈ rects, coversDest n m q) : engine n m rects = 0 := by
  obtain ⟨q, hq, c1, c2, c3, c4⟩ := hc
  obtain ⟨v1, v2, v3, v4, v5, v6⟩ := hv q hq
  have hm : 1 ≤ m := by omega
  have hn : 1 ≤ n := by omega
  have hsegs := segs_exact hv hnd n hn le_rfl
  have hqact : (q.y1, q.y2) ∈ (sweepTo m rects n).segs := by
    rw [hsegs, Finset.mem_insert]
    exact Or.inr (mem_activeAt.mpr ⟨q, hq, c1, c2, rfl⟩)
  obtain ⟨hor, hdom⟩ := segMax_spec (sweepTo m rects n).segs
  have hdle := hdom _ hqact
  obtain ⟨hs, hw, _⟩ := TInv_sweepTo hv hm n
  have hZ := ZInv_sweepTo hv hnd hm n hn le_rfl
  rcases hM : segMax (sweepTo m rects n).segs with ⟨M1, M2⟩
  rw [hM] at hdle hor
  simp only [lexLe] at hdle
  rw [engine, finalAnswer, hM]
  refine queryRange_val_zero _ _ hs hw ?_
  intro p hp1 hp2 hpl hpr
  simp only [] at hpl
  rcases hdle with hlt | hle
  · rcases hor with h0 | hmem
    · rw [Prod.mk.injEq] at h0
      exact absurd h0.1 (by omega)
    · rw [hsegs, Finset.mem_insert] at hmem
      rcases hmem with h0 | hmem
      · rw [Prod.mk.injEq] at h0
        exact absurd h0.1 (by omega)
      · obtain ⟨qp, hqp, _, _, hqpint⟩ := mem_activeAt.mp hmem
        obtain ⟨_, _, _, w4, w5, w6⟩ := hv qp hqp
        rw [Prod.mk.injEq] at hqpint
        exact hZ.1 q hq c1 c2 p (by omega) (by omega) (by omega)
  · exact absurd hpl (by omega)

/-- C9 witness: two distinct rectangles on a 3 by 3 grid, the second of which
covers the destination `(3,3)`; the engine's answer is 0. -/
theorem C9_distinct_cover_witness :
    (∀ q ∈ [(⟨1, 2, 1, 2⟩ : Rect), ⟨2, 1, 3, 3⟩], validRect 3 3 q) ∧
      (∃ q ∈ [(⟨1, 2, 1, 2⟩ : Rect), ⟨2, 1, 3, 3⟩], coversDest 3 3 q) ∧
      engine 3 3 [⟨1, 2, 1, 2⟩, ⟨2, 1, 3, 3⟩] = 0 :=
  ⟨by decide, ⟨⟨2, 1, 3, 3⟩, by decide, by decide⟩,
    C9_distinct_cover 3 3 _ (by decide) (by decide)
      ⟨⟨2, 1, 3, 3⟩, by decide, by decide⟩⟩

/-- The distinct-intervals hypothesis of the persistent invariant is
genuinely needed: here the first two rectangles share the column interval
`(2,5)`, the second one's expiration at row 4 erases the shared set element
while the first is still active, and the boundary write triggered at row 5
by the interval `(2,2)` puts the value 1 at column 3 — strictly inside the
still-active first rectangle. -/
theorem zero_persistence_needs_distinct :
    (∀ q ∈ [(⟨2, 2, 5, 5⟩ : Rect), ⟨3, 2, 3, 5⟩, ⟨5, 2, 5, 2⟩], validRect 5 6 q) ∧
      (queryRange (sweepTo 6 [⟨2, 2, 5, 5⟩, ⟨3, 2, 3, 5⟩, ⟨5, 2, 5, 2⟩] 5).tree 3 3).1 = 1 := by
  constructor
  · decide
  · decide
